import Mathlib

/-!
# Recurrence engine of the task scheduler (`pkg/api/nextdate.go`)

A shallow embedding of `NextDate` and its four rule handlers, together with the
part of Go's `time`, `strings` and `strconv` packages they call.

Every `time.Time` the engine handles is a UTC midnight (`time.Parse` of a
`20060102` string, or `time.Date(..., 0, 0, 0, 0, time.UTC)`), so a time is
represented by its day number: the number of days since 1970-01-01. The method
`Unix` is kept as Go has it, a signed 64-bit count of seconds that wraps around.
-/

namespace Scheduler

/-! ## Calendar: the proleptic Gregorian calendar of Go's `time` package -/

/-- Leap-year test (`time.isLeap`). -/
def isLeap (y : Int) : Bool :=
  y % 4 == 0 && (y % 100 != 0 || y % 400 == 0)

/-- Number of leap years among the years `1 .. y` (floor arithmetic). -/
def leapsThrough (y : Int) : Int :=
  y / 4 - y / 100 + y / 400

/-- Day number of 1 January of year `y`; 1970-01-01 is day 0. -/
def daysBeforeYear (y : Int) : Int :=
  365 * (y - 1970) + (leapsThrough (y - 1) - 477)

/-- One for a leap year, zero otherwise. -/
def leapDay (y : Int) : Int :=
  if isLeap y then 1 else 0

/-- The table `time.daysBefore`, with `l` added from March on: the days of a year
that precede the first day of month `m` (`1 ≤ m ≤ 12`). -/
def cumDays (l m : Int) : Int :=
  if m ≤ 1 then 0
  else if m = 2 then 31
  else if m = 3 then 59 + l
  else if m = 4 then 90 + l
  else if m = 5 then 120 + l
  else if m = 6 then 151 + l
  else if m = 7 then 181 + l
  else if m = 8 then 212 + l
  else if m = 9 then 243 + l
  else if m = 10 then 273 + l
  else if m = 11 then 304 + l
  else 334 + l

/-- Days of year `y` that precede the first day of month `m` (`1 ≤ m ≤ 12`). -/
def daysBeforeMonth (y m : Int) : Int :=
  cumDays (leapDay y) m

/-- Length of a month, `l` being one in a leap year. -/
def monthLen (l m : Int) : Int :=
  if m = 2 then 28 + l
  else if m = 4 ∨ m = 6 ∨ m = 9 ∨ m = 11 then 30
  else 31

/-- Length of month `m` of year `y` (`time.daysIn`). -/
def daysIn (y m : Int) : Int :=
  monthLen (leapDay y) m

/-- The month that holds day `n` (counted from 0) of a year. -/
def monthOfYday (l n : Int) : Int :=
  if n < 31 then 1
  else if n < 59 + l then 2
  else if n < 90 + l then 3
  else if n < 120 + l then 4
  else if n < 151 + l then 5
  else if n < 181 + l then 6
  else if n < 212 + l then 7
  else if n < 243 + l then 8
  else if n < 273 + l then 9
  else if n < 304 + l then 10
  else if n < 334 + l then 11
  else 12

/-- The call `time.Date(y, m, d, 0, 0, 0, 0, time.UTC)`: the month is normalised
into `1 .. 12` by carrying into the year, and the day is an offset from the first
of that month, so it may lie outside the month (day `0` is the last day of the
previous month, day `32` of January is 1 February). -/
def Date (y m d : Int) : Int :=
  let y1 := y + (m - 1) / 12
  let m1 := (m - 1) % 12 + 1
  daysBeforeYear y1 + daysBeforeMonth y1 m1 + (d - 1)

/-- The method `t.Year()`. -/
def Year (t : Int) : Int :=
  let y := 1970 + (400 * t) / 146097
  if t < daysBeforeYear y then y - 1
  else if daysBeforeYear (y + 1) ≤ t then y + 1
  else y

/-- Day of the year of `t`, counted from 0. -/
def yday (t : Int) : Int :=
  t - daysBeforeYear (Year t)

/-- The method `t.Month()`. -/
def Month (t : Int) : Int :=
  monthOfYday (leapDay (Year t)) (yday t)

/-- The method `t.Day()`. -/
def Day (t : Int) : Int :=
  yday t - daysBeforeMonth (Year t) (Month t) + 1

/-- The method `t.Weekday()`, Sunday = 0; 1970-01-01 was a Thursday. -/
def Weekday (t : Int) : Int :=
  (t + 4) % 7

/-- The method `t.Unix()` of a UTC midnight: the seconds since 1970-01-01 as a signed
64-bit integer. Go computes it in `int64` arithmetic, so outside the range of `int64`
(after 292277026596-12-04) the count wraps around; the two constants are `2 ^ 63`
and `2 ^ 64`. -/
def Unix (t : Int) : Int :=
  (86400 * t + 9223372036854775808) % 18446744073709551616 - 9223372036854775808

/-- The method `t.AddDate(years, months, days)`. -/
def AddDate (t years months days : Int) : Int :=
  Date (Year t + years) (Month t + months) (Day t + days)

/-! ## Strings: `strings.Fields`, `strings.Split`, `strings.TrimSpace`, `strconv.Atoi`

Strings are handled as lists of code points. -/

/-- The predicate `unicode.IsSpace`. -/
def isSpace (c : Char) : Bool :=
  let n := c.toNat
  n == 9 || n == 10 || n == 11 || n == 12 || n == 13 || n == 32 || n == 0x85 || n == 0xA0 ||
    n == 0x1680 || (0x2000 ≤ n && n ≤ 0x200A) || n == 0x2028 || n == 0x2029 ||
    n == 0x202F || n == 0x205F || n == 0x3000

/-- Worker of `Fields`: `cur` is the field being read, in reverse. -/
def fieldsFrom : List Char → List Char → List (List Char)
  | cur, [] => if cur.isEmpty then [] else [cur.reverse]
  | cur, c :: cs =>
    if isSpace c then
      (if cur.isEmpty then fieldsFrom [] cs else cur.reverse :: fieldsFrom [] cs)
    else fieldsFrom (c :: cur) cs

/-- The function `strings.Fields`: the maximal runs of non-space characters. -/
def Fields (s : List Char) : List (List Char) :=
  fieldsFrom [] s

/-- The call `strings.Split(s, ",")`; it always returns at least one piece. -/
def Split : List Char → List (List Char)
  | [] => [[]]
  | c :: cs =>
    if c = ',' then [] :: Split cs
    else
      match Split cs with
      | [] => [[c]]
      | piece :: pieces => (c :: piece) :: pieces

/-- The function `strings.TrimSpace`. -/
def TrimSpace (s : List Char) : List Char :=
  ((s.dropWhile isSpace).reverse.dropWhile isSpace).reverse

/-- Value of a run of decimal digits, `none` when a character is not a digit. -/
def digitsValue : List Char → Nat → Option Nat
  | [], acc => some acc
  | c :: cs, acc =>
    if 48 ≤ c.toNat ∧ c.toNat ≤ 57 then digitsValue cs (acc * 10 + (c.toNat - 48)) else none

/-- The function `strconv.Atoi` on a 64-bit platform: an optional sign followed by
at least one decimal digit, the value within the range of `int`; `none` stands for
a non-nil error. -/
def Atoi (s : List Char) : Option Int :=
  match s with
  | [] => none
  | c :: cs =>
    if c = '-' then
      (if cs.isEmpty then none
       else match digitsValue cs 0 with
         | none => none
         | some n => if n ≤ 2 ^ 63 then some (-(n : Int)) else none)
    else
      let ds := if c = '+' then cs else c :: cs
      if ds.isEmpty then none
      else match digitsValue ds 0 with
        | none => none
        | some n => if n < 2 ^ 63 then some (n : Int) else none

/-! ## `time.Parse` and `Format` for the layout `20060102`

The layout constant `dateFormat = "20060102"` is built into `Parse` and `Format`. -/

/-- Value of a decimal digit, `none` for any other character. -/
def digitOf (c : Char) : Option Int :=
  if 48 ≤ c.toNat ∧ c.toNat ≤ 57 then some ((c.toNat : Int) - 48) else none

/-- The call `time.Parse(dateFormat, s)`: exactly eight digits, a month in `1 .. 12`
and a day that exists in that month; `none` stands for a non-nil error. -/
def Parse (s : List Char) : Option Int :=
  match s with
  | [y1, y2, y3, y4, m1, m2, d1, d2] =>
    match digitOf y1, digitOf y2, digitOf y3, digitOf y4, digitOf m1, digitOf m2,
      digitOf d1, digitOf d2 with
    | some a, some b, some c, some d, some e, some f, some g, some h =>
      let year := 1000 * a + 100 * b + 10 * c + d
      let month := 10 * e + f
      let day := 10 * g + h
      if month < 1 ∨ 12 < month then none
      else if day < 1 ∨ daysIn year month < day then none
      else some (Date year month day)
    | _, _, _, _, _, _, _, _ => none
  | _ => none

/-- The character of a decimal digit (`time.utod` for `n < 10`). -/
def utod (n : Nat) : Char :=
  Char.ofNat (48 + n % 10)

/-- Decimal digits of `n`, most significant first, for `n` below `10 ^ k`. -/
def decimal : Nat → Nat → List Char
  | 0, _ => []
  | k + 1, n => decimal k (n / 10) ++ [utod n]

/-- Number of decimal digits of `n` (one for zero), found with `fuel` steps. -/
def numDigits : Nat → Nat → Nat
  | 0, _ => 1
  | fuel + 1, n => if n < 10 then 1 else numDigits fuel (n / 10) + 1

/-- The function `time.appendInt`: a minus sign for a negative number, then its
decimal digits padded with zeros to at least `width`. -/
def appendInt (x : Int) (width : Nat) : List Char :=
  let u := x.natAbs
  (if x < 0 then ['-'] else []) ++ decimal (max width (numDigits u u)) u

/-- The method `t.Format(dateFormat)`. -/
def Format (t : Int) : String :=
  String.mk (appendInt (Year t) 4 ++ appendInt (Month t) 2 ++ appendInt (Day t) 2)

/-! ## The engine -/

/-- The errors of the package. -/
inductive NextDateError
  | ErrEmptyRepeat
  | ErrInvalidDate
  | ErrInvalidRepeat
  | ErrUnsupportedRule
  | ErrInvalidDay
  | ErrInvalidMonth
  | ErrInvalidWeekday
  | ErrMaxDaysExceeded
  deriving DecidableEq, Repr

/-- What a call of the engine comes to: the pair `(date, nil)`, the pair `("", err)`,
a run-time panic (index out of range), or no answer within the allotted steps. -/
inductive Outcome
  | ok (date : String)
  | error (err : NextDateError)
  | panic
  | outOfFuel
  deriving DecidableEq, Repr

/-- The constant `maxDays`. -/
def maxDays : Int := 400

/-- The order in which a `range` statement visits the keys of a map. Go leaves it
unspecified; it is some rearrangement of the keys. -/
structure MapOrder where
  visit : List Int → List Int
  perm : ∀ keys, (visit keys).Perm keys

/-- Keys are visited in the order they were inserted. -/
def MapOrder.insertion : MapOrder :=
  ⟨fun keys => keys, fun keys => List.Perm.refl keys⟩

/-- Keys are visited in the reverse of the order they were inserted. -/
def MapOrder.reversed : MapOrder :=
  ⟨fun keys => keys.reverse, fun keys => List.reverse_perm keys⟩

/-- The assignment `m[k] = true` on a map held as the list of its keys. -/
def insertKey (keys : List Int) (k : Int) : List Int :=
  if k ∈ keys then keys else keys ++ [k]

/-- The function `afterNow`: is the day of `date` strictly after the day of `now`. -/
def afterNow (date now : Int) : Bool :=
  let date1 := Date (Year date) (Month date) (Day date)
  let now1 := Date (Year now) (Month now) (Day now)
  decide (now1 < date1)

/-- What a loop hands back: the date it stopped at, printed, or no answer when the
fuel ran out before the loop stopped. -/
def loopOutcome : Option Int → Outcome
  | none => .outOfFuel
  | some date => .ok (Format date)

/-- The `for !afterNow(dateNew, now)` loop of `handleDailyRepeat`; `fuel` bounds the
number of times the condition is evaluated. -/
def dailyLoop (now days : Int) : Nat → Int → Option Int
  | 0, _ => none
  | fuel + 1, dateNew =>
    if !afterNow dateNew now then dailyLoop now days fuel (AddDate dateNew 0 0 days)
    else some dateNew

/-- The function `handleDailyRepeat`; `today` is the calendar day of `time.Now()`. -/
def handleDailyRepeat (fuel : Nat) (today now date : Int) (parts : List (List Char)) : Outcome :=
  if parts.length ≠ 2 then .error .ErrInvalidRepeat
  else
    match Atoi (parts.getD 1 []) with
    | none => .error .ErrInvalidRepeat
    | some days =>
      if days = 1 ∧ Format now = Format today then .ok (Format date)
      else if days ≤ 0 ∨ days > maxDays then .error .ErrMaxDaysExceeded
      else loopOutcome (dailyLoop now days fuel (AddDate date 0 0 days))

/-- The function `handleYearlyRepeat`; `fuel` bounds the depth of the recursion. -/
def handleYearlyRepeat : Nat → Int → Int → Outcome
  | 0, _, _ => .outOfFuel
  | fuel + 1, now, date =>
    let newDate := AddDate date 1 0 0
    if afterNow newDate now then .ok (Format newDate)
    else handleYearlyRepeat fuel now newDate

/-- The loop of `parseWeekdays` over the pieces of the weekday list. -/
def parseWeekdaysLoop : List (List Char) → List Int → Except NextDateError (List Int)
  | [], days => .ok days
  | part :: parts, days =>
    match Atoi (TrimSpace part) with
    | none => .error .ErrInvalidWeekday
    | some wd =>
      if wd < 1 ∨ wd > 7 then .error .ErrInvalidWeekday
      else parseWeekdaysLoop parts (days ++ [wd % 7])

/-- The function `parseWeekdays`. -/
def parseWeekdays (weekdaysStr : List Char) : Except NextDateError (List Int) :=
  parseWeekdaysLoop (Split weekdaysStr) []

/-- The scanning loop of `handleWeeklyRepeat`; `fuel` bounds the number of days
looked at. -/
def weeklyLoop (now : Int) (weekdays : List Int) : Nat → Int → Option Int
  | 0, _ => none
  | fuel + 1, current =>
    if afterNow current now && weekdays.any (fun wd => decide (Weekday current = wd)) then
      some current
    else weeklyLoop now weekdays fuel (AddDate current 0 0 1)

/-- The function `handleWeeklyRepeat`. -/
def handleWeeklyRepeat (fuel : Nat) (now date : Int) (parts : List (List Char)) : Outcome :=
  if parts.length ≠ 2 then .error .ErrInvalidRepeat
  else
    match parseWeekdays (parts.getD 1 []) with
    | .error err => .error err
    | .ok weekdays => loopOutcome (weeklyLoop now weekdays fuel (AddDate date 0 0 1))

/-- The first loop of `parseMonthly`, over the pieces of the day list. -/
def parseDaysLoop : List (List Char) → List Int → Except NextDateError (List Int)
  | [], days => .ok days
  | dayStr :: rest, days =>
    match Atoi (TrimSpace dayStr) with
    | none => .error .ErrInvalidDay
    | some day =>
      if day = -1 ∨ day = -2 then parseDaysLoop rest (insertKey days day)
      else if day < 1 ∨ day > 31 then .error .ErrInvalidDay
      else parseDaysLoop rest (insertKey days day)

/-- The second loop of `parseMonthly`, over the pieces of the month list. -/
def parseMonthsLoop : List (List Char) → List Int → Except NextDateError (List Int)
  | [], months => .ok months
  | monthStr :: rest, months =>
    match Atoi (TrimSpace monthStr) with
    | none => .error .ErrInvalidMonth
    | some month =>
      if month < 1 ∨ month > 12 then .error .ErrInvalidMonth
      else parseMonthsLoop rest (insertKey months month)

/-- The function `parseMonthly`; each map is held as the list of its keys. -/
def parseMonthly (parts : List (List Char)) : Except NextDateError (List Int × List Int) :=
  match parseDaysLoop (Split (parts.getD 0 [])) [] with
  | .error err => .error err
  | .ok days =>
    if parts.length > 1 then
      match parseMonthsLoop (Split (parts.getD 1 [])) [] with
      | .error err => .error err
      | .ok months => .ok (days, months)
    else .ok (days, [])

/-- The call `sort.Slice` with `Before` as the order. -/
def sortSlice (dates : List Int) : List Int :=
  dates.insertionSort (fun a b => a ≤ b)

/-- The expression `datesCandidates[0].Format(dateFormat)` after sorting. -/
def firstCandidate (datesCandidates : List Int) : Outcome :=
  match sortSlice datesCandidates with
  | [] => .panic
  | first :: _ => .ok (Format first)

/-- Body of the inner loop of the branch of `handleMonthlyRepeat` for a day-set
with a month-set. -/
def monthCandidate (dateInitial valueMonth valueDay : Int) : Int :=
  let dateCandidate := Date (Year dateInitial) valueMonth valueDay
  if Unix dateCandidate ≤ Unix dateInitial then AddDate dateCandidate 1 0 0
  else dateCandidate

/-- Body of the loop of the branch of `handleMonthlyRepeat` for a day-set alone;
the state is `dateInitial` and `datesCandidates`. -/
def dayStep (daysInMonth : Int) (state : Int × List Int) (valueDay : Int) : Int × List Int :=
  let dateInitial :=
    if daysInMonth < valueDay then Date (Year state.1) (Month state.1 + 1) 1 else state.1
  let dateCandidate :=
    if valueDay > 0 then Date (Year dateInitial) (Month dateInitial) valueDay
    else Date (Year dateInitial) (Month dateInitial) (daysInMonth + (valueDay + 1))
  let dateCandidate :=
    if Unix dateCandidate ≤ Unix dateInitial then AddDate dateCandidate 0 1 0
    else dateCandidate
  (dateInitial, state.2 ++ [dateCandidate])

/-- The function `handleMonthlyRepeat`. -/
def handleMonthlyRepeat (ord : MapOrder) (now date : Int) (parts : List (List Char)) : Outcome :=
  if parts.length < 2 ∨ parts.length > 3 then .error .ErrUnsupportedRule
  else
    match parseMonthly (parts.drop 1) with
    | .error err => .error err
    | .ok (days, months) =>
      let daysInMonth := Day (Date (Year date) (Month date + 1) 0)
      let dateInitial := if Unix date < Unix now then now else date
      if months.length > 0 ∧ days.length > 0 then
        firstCandidate
          ((ord.visit months).flatMap fun valueMonth =>
            (ord.visit days).map fun valueDay => monthCandidate dateInitial valueMonth valueDay)
      else if days.length > 0 then
        firstCandidate ((ord.visit days).foldl (dayStep daysInMonth) (dateInitial, [])).2
      else .error .ErrMaxDaysExceeded

/-- The function `NextDate`. The argument `now` is the calendar day of the `time.Time`
passed in (the only part of it the function reads), `today` the calendar day of the
wall clock, `ord` the order in which maps are ranged over, and `fuel` a bound on the
number of loop iterations. -/
def NextDate (fuel : Nat) (ord : MapOrder) (today now : Int) (dstart repeatRule : String) :
    Outcome :=
  if repeatRule = "" then .error .ErrEmptyRepeat
  else
    match Parse dstart.data with
    | none => .error .ErrInvalidDate
    | some date =>
      let parts := Fields repeatRule.data
      if parts.length = 0 then .error .ErrInvalidRepeat
      else
        let now := Date (Year now) (Month now) (Day now)
        let kind := parts.getD 0 []
        if kind = ['d'] then handleDailyRepeat fuel today now date parts
        else if kind = ['y'] then handleYearlyRepeat fuel now date
        else if kind = ['w'] then handleWeeklyRepeat fuel now date parts
        else if kind = ['m'] then handleMonthlyRepeat ord now date parts
        else .error .ErrUnsupportedRule

/-! ## Notions used to state the properties -/

/-- What `strconv.Atoi` makes of each comma-separated member of a set, trimmed; this
is how `parseWeekdays` and `parseMonthly` read their pieces. -/
def members (tok : List Char) : List (Option Int) :=
  (Split tok).map fun part => Atoi (TrimSpace part)

/-- Weekday in the numbering of the weekly rule: 1 = Monday, ..., 7 = Sunday. -/
def isoWeekday (t : Int) : Int :=
  if Weekday t = 0 then 7 else Weekday t

/-- The reference point of the monthly rule: `dueDate`, or `now` when `dueDate` is
before `now`. -/
def referencePoint (now date : Int) : Int :=
  if date < now then now else date

/-- Is a member of a set an integer between `lo` and `hi`. -/
def inRange (lo hi : Int) : Option Int → Bool
  | none => false
  | some v => decide (lo ≤ v) && decide (v ≤ hi)

/-- Is a member of a day-set an integer in `1 .. 31`, or `-1`, or `-2`. -/
def isDay : Option Int → Bool
  | none => false
  | some v => (decide (1 ≤ v) && decide (v ≤ 31)) || decide (v = -1) || decide (v = -2)

/-- The first day of the years Go's `time.Date` can build: 1 January of its absolute
zero year. -/
def minDate : Int :=
  Date (-292277022399) 1 1

/-- The last day of the last year in which every midnight has a `Unix()` that fits a
signed 64-bit integer. -/
def maxDate : Int :=
  Date 292277026595 12 31

/-- The candidate that one turn of the day-only loop of `handleMonthlyRepeat` appends
when it leaves `dateInitial` alone and the day is positive. -/
def dayCandidate (dateInitial valueDay : Int) : Int :=
  let dateCandidate := Date (Year dateInitial) (Month dateInitial) valueDay
  if Unix dateCandidate ≤ Unix dateInitial then AddDate dateCandidate 0 1 0
  else dateCandidate

/-! ## Calendar lemmas -/

theorem daysBeforeYear_succ (y : Int) :
    daysBeforeYear (y + 1) = daysBeforeYear y + (if isLeap y then 366 else 365) := by
  unfold daysBeforeYear leapsThrough isLeap
  by_cases h4 : y % 4 = 0 <;> by_cases h100 : y % 100 = 0 <;> by_cases h400 : y % 400 = 0 <;>
    simp [h4, h100, h400] <;> omega

theorem daysBeforeYear_mono {a b : Int} (h : a ≤ b) :
    daysBeforeYear a + 365 * (b - a) ≤ daysBeforeYear b := by
  unfold daysBeforeYear leapsThrough
  omega

theorem Year_spec (t : Int) :
    daysBeforeYear (Year t) ≤ t ∧ t < daysBeforeYear (Year t + 1) := by
  unfold Year
  simp only
  have key : daysBeforeYear (1970 + 400 * t / 146097 - 1) ≤ t ∧
      t < daysBeforeYear (1970 + 400 * t / 146097 + 1 + 1) := by
    unfold daysBeforeYear leapsThrough
    constructor <;> omega
  split_ifs with h1 h2
  · refine ⟨key.1, ?_⟩
    simpa using h1
  · exact ⟨h2, key.2⟩
  · exact ⟨not_lt.mp h1, not_le.mp h2⟩

theorem Year_unique {t y : Int} (h1 : daysBeforeYear y ≤ t) (h2 : t < daysBeforeYear (y + 1)) :
    Year t = y := by
  have hs := Year_spec t
  rcases lt_trichotomy (Year t) y with h | h | h
  · have := daysBeforeYear_mono (show Year t + 1 ≤ y by omega)
    omega
  · exact h
  · have := daysBeforeYear_mono (show y + 1 ≤ Year t by omega)
    omega

theorem leapDay_range (y : Int) : leapDay y = 0 ∨ leapDay y = 1 := by
  unfold leapDay
  split_ifs <;> simp

theorem daysBeforeYear_succ_leapDay (y : Int) :
    daysBeforeYear (y + 1) = daysBeforeYear y + 365 + leapDay y := by
  rw [daysBeforeYear_succ]
  unfold leapDay
  split_ifs <;> omega

theorem yday_range (t : Int) :
    0 ≤ yday t ∧ yday t < 365 + leapDay (Year t) := by
  have hs := Year_spec t
  have h := daysBeforeYear_succ_leapDay (Year t)
  unfold yday
  omega

theorem monthOfYday_range (l n : Int) : 1 ≤ monthOfYday l n ∧ monthOfYday l n ≤ 12 := by
  unfold monthOfYday
  omega

theorem monthOfYday_spec {l n : Int} (h0 : 0 ≤ n) (h1 : n < 365 + l) :
    cumDays l (monthOfYday l n) ≤ n ∧
      n < cumDays l (monthOfYday l n) + monthLen l (monthOfYday l n) := by
  generalize hm : monthOfYday l n = m
  unfold monthOfYday at hm
  unfold cumDays monthLen
  omega

theorem monthOfYday_cumDays {l m d : Int} (hl : l = 0 ∨ l = 1) (hm1 : 1 ≤ m) (hm2 : m ≤ 12)
    (hd1 : 1 ≤ d) (hd2 : d ≤ monthLen l m) : monthOfYday l (cumDays l m + (d - 1)) = m := by
  generalize hc : cumDays l m = c
  unfold cumDays at hc
  unfold monthLen at hd2
  unfold monthOfYday
  omega

theorem cumDays_range {l m : Int} (hl : l = 0 ∨ l = 1) (hm1 : 1 ≤ m) (hm2 : m ≤ 12) :
    0 ≤ cumDays l m ∧ cumDays l m + monthLen l m ≤ 365 + l := by
  unfold cumDays monthLen
  omega

theorem Month_range (t : Int) : 1 ≤ Month t ∧ Month t ≤ 12 :=
  monthOfYday_range _ _

theorem Day_range (t : Int) : 1 ≤ Day t ∧ Day t ≤ daysIn (Year t) (Month t) := by
  have hy := yday_range t
  have h := monthOfYday_spec hy.1 hy.2
  unfold Day daysIn daysBeforeMonth Month
  omega

theorem Date_of_month_range {y m : Int} (h1 : 1 ≤ m) (h2 : m ≤ 12) (d : Int) :
    Date y m d = daysBeforeYear y + daysBeforeMonth y m + (d - 1) := by
  have e1 : (m - 1) / 12 = 0 := by omega
  have e2 : (m - 1) % 12 + 1 = m := by omega
  show daysBeforeYear (y + (m - 1) / 12) + daysBeforeMonth (y + (m - 1) / 12) ((m - 1) % 12 + 1)
    + (d - 1) = _
  rw [e1, e2, add_zero]

/-- Rebuilding a time from its own year, month and day gives the time back. -/
theorem Date_civil (t : Int) : Date (Year t) (Month t) (Day t) = t := by
  have hm := Month_range t
  rw [Date_of_month_range hm.1 hm.2]
  unfold Day yday
  omega

theorem Date_add_day (y m d n : Int) : Date y m (d + n) = Date y m d + n := by
  show daysBeforeYear (y + (m - 1) / 12) + daysBeforeMonth (y + (m - 1) / 12) ((m - 1) % 12 + 1)
    + (d + n - 1) = daysBeforeYear (y + (m - 1) / 12)
    + daysBeforeMonth (y + (m - 1) / 12) ((m - 1) % 12 + 1) + (d - 1) + n
  omega

/-- A date inside its month is recovered from its day number. -/
theorem civil_Date {y m d : Int} (hm1 : 1 ≤ m) (hm2 : m ≤ 12) (hd1 : 1 ≤ d)
    (hd2 : d ≤ daysIn y m) :
    Year (Date y m d) = y ∧ Month (Date y m d) = m ∧ Day (Date y m d) = d := by
  have hl := leapDay_range y
  have hmo := monthOfYday_cumDays hl hm1 hm2 hd1 hd2
  have hsucc := daysBeforeYear_succ_leapDay y
  have hc := cumDays_range hl hm1 hm2
  have hd2' : d ≤ monthLen (leapDay y) m := hd2
  rw [Date_of_month_range hm1 hm2]
  have hY : Year (daysBeforeYear y + daysBeforeMonth y m + (d - 1)) = y := by
    apply Year_unique <;> unfold daysBeforeMonth <;> omega
  have hM : Month (daysBeforeYear y + daysBeforeMonth y m + (d - 1)) = m := by
    unfold Month yday
    rw [hY]
    have : daysBeforeYear y + daysBeforeMonth y m + (d - 1) - daysBeforeYear y
        = cumDays (leapDay y) m + (d - 1) := by unfold daysBeforeMonth; omega
    rw [this, hmo]
  refine ⟨hY, hM, ?_⟩
  unfold Day yday
  rw [hY, hM]
  omega

theorem AddDate_days (t n : Int) : AddDate t 0 0 n = t + n := by
  unfold AddDate
  rw [add_zero, add_zero, Date_add_day, Date_civil]

/-! ## Lemmas on `Format` -/

theorem utod_inj_aux : ∀ i < 10, ∀ j < 10, Char.ofNat (48 + i) = Char.ofNat (48 + j) → i = j := by
  decide

theorem utod_inj {a b : Nat} (h : utod a = utod b) : a % 10 = b % 10 :=
  utod_inj_aux _ (Nat.mod_lt _ (by decide)) _ (Nat.mod_lt _ (by decide)) h

theorem utod_ne_minus_aux : ∀ i < 10, Char.ofNat (48 + i) ≠ '-' := by
  decide

theorem utod_ne_minus (a : Nat) : utod a ≠ '-' :=
  utod_ne_minus_aux _ (Nat.mod_lt _ (by decide))

theorem decimal_length (k n : Nat) : (decimal k n).length = k := by
  induction k generalizing n with
  | zero => rfl
  | succ k ih => simp [decimal, ih]

theorem decimal_ne_minus (k n : Nat) : ∀ c ∈ decimal k n, c ≠ '-' := by
  induction k generalizing n with
  | zero => simp [decimal]
  | succ k ih =>
    intro c hc
    simp only [decimal, List.mem_append, List.mem_singleton] at hc
    rcases hc with hc | hc
    · exact ih _ c hc
    · rw [hc]
      exact utod_ne_minus n

theorem decimal_inj (k : Nat) {a b : Nat} (h : decimal k a = decimal k b) :
    a % 10 ^ k = b % 10 ^ k := by
  induction k generalizing a b with
  | zero => simp [Nat.mod_one]
  | succ k ih =>
    simp only [decimal] at h
    have hlen : (decimal k (a / 10)).length = (decimal k (b / 10)).length := by
      rw [decimal_length, decimal_length]
    obtain ⟨h1, h2⟩ := List.append_inj h hlen
    have e1 := ih h1
    have e2 := utod_inj (List.singleton_inj.mp h2)
    rw [pow_succ', Nat.mod_mul, Nat.mod_mul, e1, e2]

theorem numDigits_spec (fuel n : Nat) (h : n ≤ fuel) : n < 10 ^ numDigits fuel n := by
  induction fuel generalizing n with
  | zero =>
    have : n = 0 := by omega
    subst this
    simp [numDigits]
  | succ fuel ih =>
    unfold numDigits
    split_ifs with h10
    · simpa using h10
    · have := ih (n / 10) (by omega)
      rw [pow_succ]
      omega

theorem appendInt_inj {x y : Int} {w : Nat} (hw : 1 ≤ w) (h : appendInt x w = appendInt y w) :
    x = y := by
  unfold appendInt at h
  simp only at h
  have hx := numDigits_spec x.natAbs x.natAbs le_rfl
  have hy := numDigits_spec y.natAbs y.natAbs le_rfl
  have same : ∀ {k1 k2 : Nat}, decimal k1 x.natAbs = decimal k2 y.natAbs →
      numDigits x.natAbs x.natAbs ≤ k1 → numDigits y.natAbs y.natAbs ≤ k2 →
      x.natAbs = y.natAbs := by
    intro k1 k2 hd h1 h2
    have hk : k1 = k2 := by
      have := congrArg List.length hd
      rwa [decimal_length, decimal_length] at this
    subst hk
    have hm := decimal_inj k1 hd
    have lx : x.natAbs < 10 ^ k1 := lt_of_lt_of_le hx (Nat.pow_le_pow_right (by decide) h1)
    have ly : y.natAbs < 10 ^ k1 := lt_of_lt_of_le hy (Nat.pow_le_pow_right (by decide) h2)
    rwa [Nat.mod_eq_of_lt lx, Nat.mod_eq_of_lt ly] at hm
  have pos : ∀ (u : Nat), 0 < max w (numDigits u u) := fun u =>
    lt_of_lt_of_le hw (le_max_left _ _)
  by_cases hx0 : x < 0 <;> by_cases hy0 : y < 0
  · simp only [hx0, hy0, if_true, List.cons_append, List.nil_append, List.cons.injEq,
      true_and] at h
    have := same h (le_max_right _ _) (le_max_right _ _)
    omega
  · simp only [hx0, hy0, if_true, if_false, List.cons_append, List.nil_append] at h
    have hmem : '-' ∈ decimal (max w (numDigits y.natAbs y.natAbs)) y.natAbs := by
      rw [← h]
      exact List.mem_cons_self _ _
    exact absurd rfl (decimal_ne_minus _ _ _ hmem)
  · simp only [hx0, hy0, if_true, if_false, List.cons_append, List.nil_append] at h
    have hmem : '-' ∈ decimal (max w (numDigits x.natAbs x.natAbs)) x.natAbs := by
      rw [h]
      exact List.mem_cons_self _ _
    exact absurd rfl (decimal_ne_minus _ _ _ hmem)
  · simp only [hx0, hy0, if_false, List.nil_append] at h
    have := same h (le_max_right _ _) (le_max_right _ _)
    omega

theorem appendInt_two_aux : ∀ n < 32, (appendInt (n : Nat) 2).length = 2 := by
  decide

theorem appendInt_two_length {x : Int} (h0 : 0 ≤ x) (h1 : x < 32) :
    (appendInt x 2).length = 2 := by
  obtain ⟨n, rfl⟩ := Int.eq_ofNat_of_zero_le h0
  exact appendInt_two_aux n (by omega)

/-- Two days printed alike are the same day. -/
theorem Format_inj {a b : Int} (h : Format a = Format b) : a = b := by
  unfold Format at h
  have h := congrArg String.data h
  simp only at h
  have hma := Month_range a
  have hmb := Month_range b
  have hda := Day_range a
  have hdb := Day_range b
  have hla : daysIn (Year a) (Month a) ≤ 31 := by unfold daysIn monthLen leapDay; omega
  have hlb : daysIn (Year b) (Month b) ≤ 31 := by unfold daysIn monthLen leapDay; omega
  have l1 := appendInt_two_length (x := Day a) (by omega) (by omega)
  have l2 := appendInt_two_length (x := Day b) (by omega) (by omega)
  have l3 := appendInt_two_length (x := Month a) (by omega) (by omega)
  have l4 := appendInt_two_length (x := Month b) (by omega) (by omega)
  obtain ⟨h12, h3⟩ := List.append_inj' h (by rw [l1, l2])
  obtain ⟨h1, h2⟩ := List.append_inj' h12 (by rw [l3, l4])
  have ey := appendInt_inj (by decide) h1
  have em := appendInt_inj (by decide) h2
  have ed := appendInt_inj (by decide) h3
  rw [← Date_civil a, ← Date_civil b, ey, em, ed]

/-! ## Lemmas on the engine -/

theorem afterNow_iff (date now : Int) : afterNow date now = true ↔ now < date := by
  unfold afterNow
  simp [Date_civil]

theorem afterNow_eq (date now : Int) : afterNow date now = decide (now < date) := by
  unfold afterNow
  simp [Date_civil]

/-- From `minDate` to `maxDate`, the day before 1 January 292277026596, the second
count does not wrap. -/
theorem Unix_eq {t : Int} (h1 : minDate ≤ t) (h2 : t < daysBeforeYear 292277026596) :
    Unix t = 86400 * t := by
  have e1 : minDate = -106751991073094 := by decide
  have e2 : daysBeforeYear 292277026596 = 106751991166962 := by decide
  rw [e1] at h1
  rw [e2] at h2
  unfold Unix
  omega

theorem Unix_le_iff {a b : Int} (ha1 : minDate ≤ a) (ha2 : a < daysBeforeYear 292277026596)
    (hb1 : minDate ≤ b) (hb2 : b < daysBeforeYear 292277026596) :
    Unix a ≤ Unix b ↔ a ≤ b := by
  rw [Unix_eq ha1 ha2, Unix_eq hb1 hb2]
  omega

theorem Unix_lt_iff {a b : Int} (ha1 : minDate ≤ a) (ha2 : a < daysBeforeYear 292277026596)
    (hb1 : minDate ≤ b) (hb2 : b < daysBeforeYear 292277026596) :
    Unix a < Unix b ↔ a < b := by
  rw [Unix_eq ha1 ha2, Unix_eq hb1 hb2]
  omega

/-- The dispatch of `NextDate` once the date is parsed and the rule has a first token. -/
theorem NextDate_of_fields {dstart repeatRule : String} {date : Int} {kind : List Char}
    {rest : List (List Char)} (hd : Parse dstart.data = some date)
    (hf : Fields repeatRule.data = kind :: rest) (fuel : Nat) (ord : MapOrder)
    (today now : Int) :
    NextDate fuel ord today now dstart repeatRule =
      if kind = ['d'] then handleDailyRepeat fuel today now date (kind :: rest)
      else if kind = ['y'] then handleYearlyRepeat fuel now date
      else if kind = ['w'] then handleWeeklyRepeat fuel now date (kind :: rest)
      else if kind = ['m'] then handleMonthlyRepeat ord now date (kind :: rest)
      else .error .ErrUnsupportedRule := by
  have hne : repeatRule ≠ "" := by
    intro h
    subst h
    have h0 : Fields "".data = [] := by decide
    rw [h0] at hf
    exact List.noConfusion hf
  unfold NextDate
  simp only [hne, if_false, hd, hf, Date_civil, List.length_cons, List.getD_cons_zero]
  simp

/-- The daily loop stops at the first of `d`, `d + days`, `d + 2 * days`, ... that is
strictly after `now`. -/
theorem dailyLoop_spec (now days : Int) (hd : 1 ≤ days) :
    ∀ (fuel : Nat) (d : Int), (now + 1 - d).toNat < fuel →
      ∃ j : Nat, dailyLoop now days fuel d = some (d + j * days) ∧ now < d + j * days ∧
        ∀ i : Nat, i < j → d + i * days ≤ now := by
  intro fuel
  induction fuel with
  | zero => intro d h; omega
  | succ fuel ih =>
    intro d h
    unfold dailyLoop
    rw [afterNow_eq, AddDate_days]
    by_cases hlt : now < d
    · refine ⟨0, ?_, ?_, ?_⟩
      · simp [hlt]
      · simpa using hlt
      · intro i hi; omega
    · obtain ⟨j, h1, h2, h3⟩ := ih (d + days) (by omega)
      have e : ∀ i : Nat, d + days + (i : Int) * days = d + ((i + 1 : Nat) : Int) * days := by
        intro i; push_cast; ring
      refine ⟨j + 1, ?_, ?_, ?_⟩
      · simp only [hlt, decide_False, Bool.not_false, if_true]
        rw [h1, e]
      · rw [← e]; exact h2
      · intro i hi
        cases i with
        | zero => simp; omega
        | succ i =>
          rw [← e]
          exact h3 i (by omega)

/-- The daily handler on a two-token rule whose interval parses. -/
theorem handleDailyRepeat_eq {tok : List Char} {n : Int} (ha : Atoi tok = some n)
    (fuel : Nat) (today now date : Int) :
    handleDailyRepeat fuel today now date [['d'], tok] =
      if n = 1 ∧ Format now = Format today then .ok (Format date)
      else if n ≤ 0 ∨ n > 400 then .error .ErrMaxDaysExceeded
      else loopOutcome (dailyLoop now n fuel (date + n)) := by
  unfold handleDailyRepeat
  simp [ha, maxDays, AddDate_days]

theorem handleDailyRepeat_spec {tok : List Char} {n : Int} (ha : Atoi tok = some n)
    (today now date : Int) (hpass : ¬ (n = 1 ∧ now = today)) :
    (n ≤ 0 ∨ 400 < n → ∀ fuel, handleDailyRepeat fuel today now date [['d'], tok]
        = .error .ErrMaxDaysExceeded) ∧
    (1 ≤ n ∧ n ≤ 400 → ∃ k : Int, 1 ≤ k ∧ now < date + k * n ∧
        (∀ j : Int, 1 ≤ j → now < date + j * n → k ≤ j) ∧
        ∀ fuel, (now + 1 - date).toNat < fuel →
          handleDailyRepeat fuel today now date [['d'], tok] = .ok (Format (date + k * n))) := by
  have hpass2 : ¬ (n = 1 ∧ Format now = Format today) := fun h => hpass ⟨h.1, Format_inj h.2⟩
  constructor
  · intro hn fuel
    rw [handleDailyRepeat_eq ha]
    simp only [hpass2, if_false]
    rw [if_pos (by omega)]
  · intro hn
    obtain ⟨j, _, h2, h3⟩ := dailyLoop_spec now n hn.1 ((now + 1 - (date + n)).toNat + 1)
      (date + n) (by omega)
    have e : date + n + (j : Int) * n = date + ((j : Int) + 1) * n := by ring
    refine ⟨(j : Int) + 1, by omega, by rw [← e]; exact h2, ?_, ?_⟩
    · intro i hi hlt
      by_contra hcon
      have hi' : (i - 1).toNat < j := by omega
      have := h3 (i - 1).toNat hi'
      have e2 : ((i - 1).toNat : Int) = i - 1 := Int.toNat_of_nonneg (by omega)
      rw [e2] at this
      have e3 : date + n + (i - 1) * n = date + i * n := by ring
      rw [e3] at this
      omega
    · intro fuel hfuel
      obtain ⟨j', h1', h2', h3'⟩ := dailyLoop_spec now n hn.1 fuel (date + n) (by omega)
      have hjj : j' = j := by
        rcases Nat.lt_trichotomy j' j with h | h | h
        · have := h3 j' h; omega
        · exact h
        · have := h3' j h; omega
      subst hjj
      rw [handleDailyRepeat_eq ha]
      simp only [hpass2, if_false]
      rw [if_neg (by omega), h1', e]
      rfl

/-- C3. Daily rule `d n`, the interval-1 pass-through aside: an interval `n ≤ 0` or
`n > 400` fails with `ErrMaxDaysExceeded` (so do `d 0` and `d 401`, while `d 400`
succeeds); otherwise, with enough fuel, the call returns `dueDate + k * n` days for the
least `k ≥ 1` that puts this date strictly after `now`; with `dueDate` seven days before
`now`, the rule `d 7` returns `now + 7` days. -/
theorem NextDate_daily_interval (ord : MapOrder) (today now date n : Int)
    (dstart repeatRule : String) (tok : List Char)
    (hdate : Parse dstart.data = some date)
    (hrule : Fields repeatRule.data = [['d'], tok]) (hn : Atoi tok = some n)
    (hpass : ¬ (n = 1 ∧ now = today)) :
    (n ≤ 0 ∨ 400 < n → ∀ fuel, NextDate fuel ord today now dstart repeatRule
        = .error .ErrMaxDaysExceeded) ∧
    (1 ≤ n ∧ n ≤ 400 → ∃ k : Int, 1 ≤ k ∧ now < date + k * n ∧
        (∀ j : Int, 1 ≤ j → now < date + j * n → k ≤ j) ∧
        ∀ fuel, (now + 1 - date).toNat < fuel →
          NextDate fuel ord today now dstart repeatRule = .ok (Format (date + k * n))) ∧
    (∀ fuel, NextDate fuel ord today now dstart "d 0" = .error .ErrMaxDaysExceeded) ∧
    (∀ fuel, NextDate fuel ord today now dstart "d 401" = .error .ErrMaxDaysExceeded) ∧
    (∀ fuel, (now + 1 - date).toNat < fuel →
      ∃ next, NextDate fuel ord today now dstart "d 400" = .ok (Format next)) ∧
    (date + 7 = now → ∀ fuel, (now + 1 - date).toNat < fuel →
      NextDate fuel ord today now dstart "d 7" = .ok (Format (now + 7))) := by
  have key : ∀ (r : String) (t : List Char) (m : Int), Fields r.data = [['d'], t] →
      Atoi t = some m → ∀ fuel, NextDate fuel ord today now dstart r
        = handleDailyRepeat fuel today now date [['d'], t] := by
    intro r t m hr _ fuel
    rw [NextDate_of_fields hdate hr]
    simp
  have h0 := handleDailyRepeat_spec (show Atoi ['0'] = some 0 by decide) today now date (by omega)
  have h401 := handleDailyRepeat_spec (show Atoi ['4', '0', '1'] = some 401 by decide)
    today now date (by omega)
  have h400 := handleDailyRepeat_spec (show Atoi ['4', '0', '0'] = some 400 by decide)
    today now date (by omega)
  have h7 := handleDailyRepeat_spec (show Atoi ['7'] = some 7 by decide) today now date (by omega)
  have hs := handleDailyRepeat_spec hn today now date hpass
  refine ⟨?_, ?_, ?_, ?_, ?_, ?_⟩
  · intro hb fuel
    rw [key _ _ _ hrule hn]
    exact hs.1 hb fuel
  · intro hb
    obtain ⟨k, h1, h2, h3, h4⟩ := hs.2 hb
    refine ⟨k, h1, h2, h3, ?_⟩
    intro fuel hf
    rw [key _ _ _ hrule hn]
    exact h4 fuel hf
  · intro fuel
    rw [key "d 0" ['0'] 0 (by decide) (by decide)]
    exact h0.1 (by omega) fuel
  · intro fuel
    rw [key "d 401" ['4', '0', '1'] 401 (by decide) (by decide)]
    exact h401.1 (by omega) fuel
  · intro fuel hf
    obtain ⟨k, _, _, _, h4⟩ := h400.2 (by omega)
    refine ⟨date + k * 400, ?_⟩
    rw [key "d 400" ['4', '0', '0'] 400 (by decide) (by decide)]
    exact h4 fuel hf
  · intro hd fuel hf
    obtain ⟨k, h1, h2, h3, h4⟩ := h7.2 (by omega)
    have hk : k = 2 := by
      have := h3 2 (by omega) (by omega)
      omega
    subst hk
    rw [key "d 7" ['7'] 7 (by decide) (by decide), h4 fuel hf]
    congr 2
    omega

theorem NextDate_daily_interval_witness :
    NextDate 10 MapOrder.insertion 0 (Date 2024 1 26) "20240119" "d 7" = .ok "20240202" := by
  have h := (NextDate_daily_interval MapOrder.insertion 0 (Date 2024 1 26) (Date 2024 1 19) 7
    "20240119" "d 7" ['7'] (by decide) (by decide) (by decide) (by decide)).2.2.2.2.2
    (by decide) 10 (by decide)
  rw [h]
  decide

/-- C4, as stated, fails: for the rule `d 1` the claim has `dueDate` returned unchanged
exactly when `dueDate` is the true current day. With `now` and the wall clock both on
2024-01-10 and `dueDate` 2024-01-05, the date 20240105 is returned unchanged. -/
theorem NextDate_daily_passthrough_counterexample :
    ¬ (∀ (fuel : Nat) (ord : MapOrder) (today now date : Int) (dstart : String),
        Parse dstart.data = some date → (now + 1 - date).toNat < fuel →
        (NextDate fuel ord today now dstart "d 1" = .ok (Format date) ↔ date = today)) := by
  intro h
  have h1 := (h 10 MapOrder.insertion (Date 2024 1 10) (Date 2024 1 10) (Date 2024 1 5)
    "20240105" (by decide) (by decide)).mp (by decide)
  exact absurd h1 (by decide)

/-- C4, amended. For the rule `d 1`, with the true current day `today` an explicit
input: `dueDate` is returned unchanged exactly when the calendar day of `now` (not of
`dueDate`) is the true current day; in every other case the call returns the first of
`dueDate + 1`, `dueDate + 2`, ... days that is strictly after `now`. -/
theorem NextDate_daily_passthrough (ord : MapOrder) (today now date : Int) (dstart : String)
    (hdate : Parse dstart.data = some date) :
    (now = today → ∀ fuel, NextDate fuel ord today now dstart "d 1" = .ok (Format date)) ∧
    (now ≠ today → ∃ k : Int, 1 ≤ k ∧ now < date + k ∧
        (∀ j : Int, 1 ≤ j → now < date + j → k ≤ j) ∧
        ∀ fuel, (now + 1 - date).toNat < fuel →
          NextDate fuel ord today now dstart "d 1" = .ok (Format (date + k))) ∧
    (∀ fuel, (now + 1 - date).toNat < fuel →
      (NextDate fuel ord today now dstart "d 1" = .ok (Format date) ↔ now = today)) := by
  have key : ∀ fuel, NextDate fuel ord today now dstart "d 1"
      = handleDailyRepeat fuel today now date [['d'], ['1']] := by
    intro fuel
    rw [NextDate_of_fields hdate (show Fields "d 1".data = [['d'], ['1']] by decide)]
    simp
  have ha : Atoi ['1'] = some 1 := by decide
  have pass : now = today → ∀ fuel, NextDate fuel ord today now dstart "d 1"
      = .ok (Format date) := by
    intro h fuel
    rw [key, handleDailyRepeat_eq ha, h]
    simp
  have other : now ≠ today → ∃ k : Int, 1 ≤ k ∧ now < date + k ∧
      (∀ j : Int, 1 ≤ j → now < date + j → k ≤ j) ∧
      ∀ fuel, (now + 1 - date).toNat < fuel →
        NextDate fuel ord today now dstart "d 1" = .ok (Format (date + k)) := by
    intro h
    obtain ⟨k, h1, h2, h3, h4⟩ :=
      (handleDailyRepeat_spec ha today now date (fun hc => h hc.2)).2 (by omega)
    refine ⟨k, h1, by simpa using h2, ?_, ?_⟩
    · intro j hj hlt
      exact h3 j hj (by simpa using hlt)
    · intro fuel hf
      rw [key, h4 fuel hf]
      simp
  refine ⟨pass, other, ?_⟩
  intro fuel hf
  constructor
  · intro hres
    by_contra hne
    obtain ⟨k, h1, _, _, h4⟩ := other hne
    rw [h4 fuel hf] at hres
    have := Format_inj (Outcome.ok.inj hres)
    omega
  · intro h
    exact pass h fuel

theorem NextDate_daily_passthrough_witness :
    NextDate 10 MapOrder.insertion (Date 2024 1 10) (Date 2024 1 10) "20240105" "d 1"
      = .ok "20240105" := by
  have h := (NextDate_daily_passthrough MapOrder.insertion (Date 2024 1 10) (Date 2024 1 10)
    (Date 2024 1 5) "20240105" (by decide)).1 rfl 10
  rw [h]
  decide

/-- C9. Malformed input is classified in a fixed order: an empty rule is `ErrEmptyRepeat`
whatever the date; otherwise a date that does not parse is `ErrInvalidDate` whatever the
rule; otherwise a rule without tokens is `ErrInvalidRepeat`; otherwise a first token other
than `d`, `y`, `w`, `m` is `ErrUnsupportedRule` (as for `x 5`); a `d` or `w` rule whose
token count is not 2 is `ErrInvalidRepeat`; an `m` rule whose token count is neither 2
nor 3 is `ErrUnsupportedRule` (as for `m` alone). -/
theorem NextDate_malformed_precedence (fuel : Nat) (ord : MapOrder) (today now : Int)
    (dstart repeatRule : String) :
    (repeatRule = "" → NextDate fuel ord today now dstart repeatRule = .error .ErrEmptyRepeat) ∧
    (repeatRule ≠ "" → Parse dstart.data = none →
      NextDate fuel ord today now dstart repeatRule = .error .ErrInvalidDate) ∧
    (repeatRule ≠ "" → Parse dstart.data ≠ none → Fields repeatRule.data = [] →
      NextDate fuel ord today now dstart repeatRule = .error .ErrInvalidRepeat) ∧
    (∀ kind rest, Parse dstart.data ≠ none → Fields repeatRule.data = kind :: rest →
      kind ≠ ['d'] → kind ≠ ['y'] → kind ≠ ['w'] → kind ≠ ['m'] →
      NextDate fuel ord today now dstart repeatRule = .error .ErrUnsupportedRule) ∧
    (∀ kind rest, Parse dstart.data ≠ none → Fields repeatRule.data = kind :: rest →
      kind = ['d'] ∨ kind = ['w'] → (kind :: rest).length ≠ 2 →
      NextDate fuel ord today now dstart repeatRule = .error .ErrInvalidRepeat) ∧
    (∀ rest, Parse dstart.data ≠ none → Fields repeatRule.data = ['m'] :: rest →
      (['m'] :: rest).length ≠ 2 → (['m'] :: rest).length ≠ 3 →
      NextDate fuel ord today now dstart repeatRule = .error .ErrUnsupportedRule) ∧
    (Parse dstart.data ≠ none →
      NextDate fuel ord today now dstart "x 5" = .error .ErrUnsupportedRule) ∧
    (Parse dstart.data ≠ none →
      NextDate fuel ord today now dstart "m" = .error .ErrUnsupportedRule) := by
  have gen : ∀ (r : String) (rest : List (List Char)), Parse dstart.data ≠ none →
      Fields r.data = ['m'] :: rest →
      (['m'] :: rest).length ≠ 2 → (['m'] :: rest).length ≠ 3 →
      NextDate fuel ord today now dstart r = .error .ErrUnsupportedRule := by
    intro r rest hp hf h2 h3
    obtain ⟨date, hd⟩ := Option.ne_none_iff_exists'.mp hp
    rw [NextDate_of_fields hd hf, if_neg (by decide), if_neg (by decide), if_neg (by decide),
      if_pos rfl]
    simp only [List.length_cons] at h2 h3
    unfold handleMonthlyRepeat
    simp only [List.length_cons]
    rw [if_pos (by omega)]
  have unsup : ∀ (r : String) (kind : List Char) (rest : List (List Char)),
      Parse dstart.data ≠ none → Fields r.data = kind :: rest →
      kind ≠ ['d'] → kind ≠ ['y'] → kind ≠ ['w'] → kind ≠ ['m'] →
      NextDate fuel ord today now dstart r = .error .ErrUnsupportedRule := by
    intro r kind rest hp hf h1 h2 h3 h4
    obtain ⟨date, hd⟩ := Option.ne_none_iff_exists'.mp hp
    rw [NextDate_of_fields hd hf]
    simp [h1, h2, h3, h4]
  refine ⟨?_, ?_, ?_, unsup repeatRule, ?_, gen repeatRule, ?_, ?_⟩
  · intro h
    unfold NextDate
    simp [h]
  · intro h hp
    unfold NextDate
    simp [h, hp]
  · intro h hp hf
    obtain ⟨date, hd⟩ := Option.ne_none_iff_exists'.mp hp
    unfold NextDate
    simp [h, hd, hf]
  · intro kind rest hp hf hk hlen
    obtain ⟨date, hd⟩ := Option.ne_none_iff_exists'.mp hp
    rw [NextDate_of_fields hd hf]
    rcases hk with hk | hk
    · subst hk
      rw [if_pos rfl]
      unfold handleDailyRepeat
      rw [if_pos hlen]
    · subst hk
      rw [if_neg (by decide), if_neg (by decide), if_pos rfl]
      unfold handleWeeklyRepeat
      rw [if_pos hlen]
  · intro hp
    exact unsup "x 5" ['x'] [['5']] hp (by decide) (by decide) (by decide) (by decide) (by decide)
  · intro hp
    exact gen "m" [] hp (by decide) (by decide) (by decide)

theorem NextDate_malformed_precedence_witness :
    NextDate 0 MapOrder.insertion 0 0 "20240101" "m" = .error .ErrUnsupportedRule ∧
    NextDate 0 MapOrder.insertion 0 0 "2024-01-01" "d 7" = .error .ErrInvalidDate := by
  have h := NextDate_malformed_precedence 0 MapOrder.insertion 0 0 "20240101" "m"
  have h2 := NextDate_malformed_precedence 0 MapOrder.insertion 0 0 "2024-01-01" "d 7"
  exact ⟨h.2.2.2.2.2.2.2 (by decide), h2.2.1 (by decide) (by decide)⟩

/-- The civil form of a time: year start, month offset and day. -/
theorem civil_form (t : Int) :
    t = daysBeforeYear (Year t) + cumDays (leapDay (Year t)) (Month t) + (Day t - 1) := by
  have h := Date_civil t
  have hm := Month_range t
  rw [Date_of_month_range hm.1 hm.2] at h
  unfold daysBeforeMonth at h
  omega

theorem leapDay_succ (y : Int) : leapDay y = 1 → leapDay (y + 1) = 0 := by
  unfold leapDay isLeap
  intro h
  by_cases h4 : y % 4 = 0
  · have : ¬ ((y + 1) % 4 = 0) := by omega
    simp [this]
  · simp [h4] at h

/-- Adding a year: what `AddDate(1, 0, 0)` computes. -/
theorem AddDate_year_eq (t : Int) :
    AddDate t 1 0 0 = Date (Year t + 1) (Month t) (Day t) := by
  unfold AddDate
  simp

/-- A year added moves a date by at least 365 days. -/
theorem AddDate_year_ge (t : Int) : t + 365 ≤ AddDate t 1 0 0 := by
  have hm := Month_range t
  have hd := Day_range t
  have hc := civil_form t
  have hs := daysBeforeYear_succ_leapDay (Year t)
  have hl := leapDay_range (Year t)
  have hl' := leapDay_range (Year t + 1)
  rw [AddDate_year_eq, Date_of_month_range hm.1 hm.2]
  unfold daysBeforeMonth
  generalize leapDay (Year t) = l at *
  generalize leapDay (Year t + 1) = l' at *
  generalize Month t = m at *
  unfold cumDays at hc ⊢
  omega

/-- Adding a year keeps month and day, except that 29 February becomes 1 March. -/
theorem AddDate_year_civil (t : Int) :
    Year (AddDate t 1 0 0) = Year t + 1 ∧
    (¬ (Month t = 2 ∧ Day t = 29) →
      Month (AddDate t 1 0 0) = Month t ∧ Day (AddDate t 1 0 0) = Day t) ∧
    (Month t = 2 ∧ Day t = 29 →
      Month (AddDate t 1 0 0) = 3 ∧ Day (AddDate t 1 0 0) = 1) := by
  have hm := Month_range t
  have hd := Day_range t
  have hl := leapDay_range (Year t)
  have hl' := leapDay_range (Year t + 1)
  have hls := leapDay_succ (Year t)
  rw [AddDate_year_eq]
  by_cases hfeb : Month t = 2 ∧ Day t = 29
  · have hleap : leapDay (Year t) = 1 := by
      have := hd.2
      unfold daysIn monthLen at this
      rw [hfeb.1, hfeb.2] at this
      simp at this
      omega
    have hl0 := hls hleap
    have e : Date (Year t + 1) (Month t) (Day t) = Date (Year t + 1) 3 1 := by
      rw [hfeb.1, hfeb.2, Date_of_month_range (by decide) (by decide),
        Date_of_month_range (by decide) (by decide)]
      unfold daysBeforeMonth cumDays
      rw [hl0]
      simp
      omega
    rw [e]
    have hc := civil_Date (y := Year t + 1) (m := 3) (d := 1) (by decide) (by decide) (by decide)
      (by unfold daysIn monthLen; simp)
    exact ⟨hc.1, fun h => absurd hfeb h, fun _ => ⟨hc.2.1, hc.2.2⟩⟩
  · have hval : Day t ≤ daysIn (Year t + 1) (Month t) := by
      have := hd.2
      unfold daysIn monthLen at this ⊢
      by_cases h2 : Month t = 2
      · have hd29 : Day t ≠ 29 := fun h => hfeb ⟨h2, h⟩
        simp only [h2, if_true] at this ⊢
        omega
      · simp only [h2, if_false] at this ⊢
        exact this
    have hc := civil_Date hm.1 hm.2 hd.1 hval
    exact ⟨hc.1, fun _ => ⟨hc.2.1, hc.2.2⟩, fun h => absurd h hfeb⟩

/-- The yearly recursion stops at the first of the dates got from `date` by adding
one year at a time, at least once, that is strictly after `now`. -/
theorem handleYearlyRepeat_spec (now : Int) :
    ∀ (fuel : Nat) (date : Int), (now + 1 - date).toNat < fuel →
      ∃ k : Nat, 1 ≤ k ∧
        handleYearlyRepeat fuel now date = .ok (Format ((fun t => AddDate t 1 0 0)^[k] date)) ∧
        now < (fun t => AddDate t 1 0 0)^[k] date ∧
        ∀ j : Nat, 1 ≤ j → j < k → (fun t => AddDate t 1 0 0)^[j] date ≤ now := by
  intro fuel
  induction fuel with
  | zero => intro date h; omega
  | succ fuel ih =>
    intro date h
    have hge := AddDate_year_ge date
    unfold handleYearlyRepeat
    simp only [afterNow_eq]
    by_cases hlt : now < AddDate date 1 0 0
    · refine ⟨1, le_rfl, ?_, ?_, ?_⟩
      · simp [hlt]
      · simpa using hlt
      · intro j h1 h2; omega
    · obtain ⟨k, h1, h2, h3, h4⟩ := ih (AddDate date 1 0 0) (by omega)
      refine ⟨k + 1, by omega, ?_, ?_, ?_⟩
      · simp only [hlt, decide_False, Bool.false_eq_true, if_false]
        rw [h2, Function.iterate_succ_apply]
      · rw [Function.iterate_succ_apply]; exact h3
      · intro j hj1 hj2
        cases j with
        | zero => omega
        | succ j =>
          rw [Function.iterate_succ_apply]
          cases j with
          | zero => simpa using hlt
          | succ j => exact h4 (j + 1) (by omega) (by omega)

/-- Away from 29 February, adding `j` years moves the year by `j` and keeps month
and day. -/
theorem iterate_year_civil {date : Int} (hfeb : ¬ (Month date = 2 ∧ Day date = 29)) :
    ∀ j : Nat, Year ((fun t => AddDate t 1 0 0)^[j] date) = Year date + j ∧
      Month ((fun t => AddDate t 1 0 0)^[j] date) = Month date ∧
      Day ((fun t => AddDate t 1 0 0)^[j] date) = Day date := by
  intro j
  induction j with
  | zero => simp
  | succ j ih =>
    rw [Function.iterate_succ_apply']
    obtain ⟨h1, h2, h3⟩ := ih
    have hc := AddDate_year_civil ((fun t => AddDate t 1 0 0)^[j] date)
    have hnf : ¬ (Month ((fun t => AddDate t 1 0 0)^[j] date) = 2 ∧
        Day ((fun t => AddDate t 1 0 0)^[j] date) = 29) := by
      rw [h2, h3]; exact hfeb
    obtain ⟨e2, e3⟩ := hc.2.1 hnf
    refine ⟨?_, by rw [e2, h2], by rw [e3, h3]⟩
    rw [hc.1, h1]
    push_cast
    ring

theorem iterate_year_eq {date : Int} (hfeb : ¬ (Month date = 2 ∧ Day date = 29)) (j : Nat) :
    (fun t => AddDate t 1 0 0)^[j] date = Date (Year date + j) (Month date) (Day date) := by
  obtain ⟨h1, h2, h3⟩ := iterate_year_civil hfeb j
  rw [← h1, ← h2, ← h3, Date_civil]

/-- C5. Yearly rule `y`: with enough fuel the call returns the first date strictly
after `now` among those got from `dueDate` by adding one year at a time, at least once;
adding a year keeps month and day, except that 29 February becomes 1 March (the next
year is never a leap year); so for a `dueDate` other than 29 February the result has
`dueDate`'s month and day and the smallest year above `dueDate`'s that puts it after
`now`; and for `now` = 2024-02-29, `dueDate` = 20240229 the result is 20250301. -/
theorem NextDate_yearly (ord : MapOrder) (today now date : Int) (dstart : String)
    (hdate : Parse dstart.data = some date) :
    (∃ k : Nat, 1 ≤ k ∧ now < (fun t => AddDate t 1 0 0)^[k] date ∧
      (∀ j : Nat, 1 ≤ j → j < k → (fun t => AddDate t 1 0 0)^[j] date ≤ now) ∧
      (∀ fuel, (now + 1 - date).toNat < fuel →
        NextDate fuel ord today now dstart "y"
          = .ok (Format ((fun t => AddDate t 1 0 0)^[k] date))) ∧
      (¬ (Month date = 2 ∧ Day date = 29) →
        (fun t => AddDate t 1 0 0)^[k] date = Date (Year date + k) (Month date) (Day date) ∧
        Year ((fun t => AddDate t 1 0 0)^[k] date) = Year date + k ∧
        Month ((fun t => AddDate t 1 0 0)^[k] date) = Month date ∧
        Day ((fun t => AddDate t 1 0 0)^[k] date) = Day date ∧
        ∀ y : Int, Year date < y → now < Date y (Month date) (Day date) →
          Year date + k ≤ y)) ∧
    (∀ t : Int, Year (AddDate t 1 0 0) = Year t + 1 ∧
      (¬ (Month t = 2 ∧ Day t = 29) →
        Month (AddDate t 1 0 0) = Month t ∧ Day (AddDate t 1 0 0) = Day t) ∧
      (Month t = 2 ∧ Day t = 29 →
        Month (AddDate t 1 0 0) = 3 ∧ Day (AddDate t 1 0 0) = 1)) ∧
    (date = Date 2024 2 29 → now = Date 2024 2 29 → ∀ fuel, 0 < fuel →
      NextDate fuel ord today now dstart "y" = .ok "20250301") := by
  have key : ∀ fuel, NextDate fuel ord today now dstart "y"
      = handleYearlyRepeat fuel now date := by
    intro fuel
    rw [NextDate_of_fields hdate (show Fields "y".data = [['y']] by decide)]
    simp
  refine ⟨?_, AddDate_year_civil, ?_⟩
  · obtain ⟨k, h1, _, h3, h4⟩ := handleYearlyRepeat_spec now ((now + 1 - date).toNat + 1) date
      (by omega)
    refine ⟨k, h1, h3, h4, ?_, ?_⟩
    · intro fuel hf
      obtain ⟨k', h1', h2', h3', h4'⟩ := handleYearlyRepeat_spec now fuel date hf
      have hkk : k' = k := by
        rcases Nat.lt_trichotomy k' k with h | h | h
        · have := h4 k' h1' h; omega
        · exact h
        · have := h4' k h1 h; omega
      subst hkk
      rw [key, h2']
    · intro hfeb
      obtain ⟨c1, c2, c3⟩ := iterate_year_civil hfeb k
      refine ⟨iterate_year_eq hfeb k, c1, c2, c3, ?_⟩
      intro y hy hlt
      by_contra hcon
      have hj : (y - Year date).toNat < k := by omega
      have hj1 : 1 ≤ (y - Year date).toNat := by omega
      have := h4 _ hj1 hj
      rw [iterate_year_eq hfeb] at this
      have e : Year date + ((y - Year date).toNat : Int) = y := by
        rw [Int.toNat_of_nonneg (by omega)]; omega
      rw [e] at this
      omega
  · intro hd hn fuel hf
    subst hd hn
    rw [key]
    obtain ⟨f, rfl⟩ := Nat.exists_eq_succ_of_ne_zero (Nat.pos_iff_ne_zero.mp hf)
    unfold handleYearlyRepeat
    have h1 : afterNow (AddDate (Date 2024 2 29) 1 0 0) (Date 2024 2 29) = true := by decide
    have h2 : Format (AddDate (Date 2024 2 29) 1 0 0) = "20250301" := by decide
    simp only [h1, if_true, h2]

theorem NextDate_yearly_witness :
    NextDate 1 MapOrder.insertion 0 (Date 2024 2 29) "20240229" "y" = .ok "20250301" :=
  (NextDate_yearly MapOrder.insertion 0 (Date 2024 2 29) (Date 2024 2 29) "20240229"
    (by decide)).2.2 rfl rfl 1 (by decide)

/-- On members that all read as weekdays in `1 .. 7` the parsing loop appends their
values modulo 7. -/
theorem parseWeekdaysLoop_ok : ∀ (parts : List (List Char)) (acc S : List Int),
    parts.map (fun part => Atoi (TrimSpace part)) = S.map some →
    (∀ v ∈ S, 1 ≤ v ∧ v ≤ 7) →
    parseWeekdaysLoop parts acc = .ok (acc ++ S.map (fun v => v % 7)) := by
  intro parts
  induction parts with
  | nil =>
    intro acc S h _
    cases S with
    | nil => simp [parseWeekdaysLoop]
    | cons v S => simp at h
  | cons part parts ih =>
    intro acc S h hr
    cases S with
    | nil => simp at h
    | cons v S =>
      simp only [List.map_cons, List.cons.injEq] at h
      have hv := hr v (List.mem_cons_self _ _)
      unfold parseWeekdaysLoop
      rw [h.1]
      simp only
      rw [if_neg (by omega), ih _ S h.2 (fun w hw => hr w (List.mem_cons_of_mem _ hw))]
      simp

theorem Split_ne_nil (s : List Char) : Split s ≠ [] := by
  induction s with
  | nil => simp [Split]
  | cons c cs ih =>
    unfold Split
    split_ifs
    · simp
    · cases h : Split cs with
      | nil => exact absurd h ih
      | cons p ps => simp

theorem parseWeekdays_ok {tok : List Char} {S : List Int} (hS : members tok = S.map some)
    (hr : ∀ v ∈ S, 1 ≤ v ∧ v ≤ 7) :
    parseWeekdays tok = .ok (S.map (fun v => v % 7)) ∧ S ≠ [] := by
  constructor
  · unfold parseWeekdays
    rw [parseWeekdaysLoop_ok _ [] S hS hr]
    simp
  · intro h
    subst h
    unfold members at hS
    simp only [List.map_nil, List.map_eq_nil_iff] at hS
    exact Split_ne_nil tok hS

theorem Weekday_range (t : Int) : 0 ≤ Weekday t ∧ Weekday t < 7 := by
  unfold Weekday
  omega

/-- A day's weekday is among the parsed values exactly when its number in the rule's
numbering is a member of the set. -/
theorem isoWeekday_mem {S : List Int} (hr : ∀ v ∈ S, 1 ≤ v ∧ v ≤ 7) (t : Int) :
    Weekday t ∈ S.map (fun v => v % 7) ↔ isoWeekday t ∈ S := by
  have hw := Weekday_range t
  unfold isoWeekday
  simp only [List.mem_map]
  constructor
  · rintro ⟨v, hv, e⟩
    have := hr v hv
    have : v = if Weekday t = 0 then 7 else Weekday t := by
      split_ifs <;> omega
    rw [← this]
    exact hv
  · intro h
    refine ⟨_, h, ?_⟩
    split_ifs <;> omega

/-- The weekly scan stops at the first day from `cur` on that is strictly after `now`
and whose weekday is listed. -/
theorem weeklyLoop_spec (now : Int) (wds : List Int) :
    ∀ (fuel : Nat) (cur : Int),
      (∃ t, cur ≤ t ∧ now < t ∧ Weekday t ∈ wds ∧ (t - cur).toNat < fuel) →
      ∃ r, weeklyLoop now wds fuel cur = some r ∧ cur ≤ r ∧ now < r ∧ Weekday r ∈ wds ∧
        ∀ t, cur ≤ t → now < t → Weekday t ∈ wds → r ≤ t := by
  intro fuel
  induction fuel with
  | zero =>
    rintro cur ⟨t, _, _, _, h⟩
    omega
  | succ fuel ih =>
    rintro cur ⟨t, h1, h2, h3, h4⟩
    unfold weeklyLoop
    rw [afterNow_eq, AddDate_days]
    by_cases hc : now < cur ∧ Weekday cur ∈ wds
    · refine ⟨cur, ?_, le_rfl, hc.1, hc.2, fun t' h _ _ => h⟩
      have : (decide (now < cur) && wds.any fun wd => decide (Weekday cur = wd)) = true := by
        simp [hc.1, hc.2]
      rw [if_pos this]
    · have hne : t ≠ cur := by
        intro h
        subst h
        exact hc ⟨h2, h3⟩
      obtain ⟨r, r1, r2, r3, r4, r5⟩ := ih (cur + 1) ⟨t, by omega, h2, h3, by omega⟩
      refine ⟨r, ?_, by omega, r3, r4, ?_⟩
      · have : ¬ ((decide (now < cur) && wds.any fun wd => decide (Weekday cur = wd)) = true) := by
          simpa using hc
        rw [if_neg this]
        exact r1
      · intro t' h1' h2' h3'
        have : t' ≠ cur := by
          intro h
          subst h
          exact hc ⟨h2', h3'⟩
        exact r5 t' (by omega) h2' h3'

/-- Within any seven days in a row there is a day of a given weekday. -/
theorem exists_weekday (s wd : Int) (h0 : 0 ≤ wd) (h7 : wd < 7) :
    ∃ t, s ≤ t ∧ t ≤ s + 6 ∧ Weekday t = wd := by
  refine ⟨s + (wd - Weekday s) % 7, ?_, ?_, ?_⟩ <;> unfold Weekday <;> omega

/-- The weekly handler on a valid weekday set. -/
theorem handleWeeklyRepeat_spec (now date : Int) {tok : List Char} {S : List Int}
    (hS : members tok = S.map some) (hr : ∀ v ∈ S, 1 ≤ v ∧ v ≤ 7) :
    ∃ r, (∀ fuel, (now - date).toNat + 7 ≤ fuel →
        handleWeeklyRepeat fuel now date [['w'], tok] = .ok (Format r)) ∧
      date < r ∧ now < r ∧ isoWeekday r ∈ S ∧
      (∀ t, date < t → now < t → isoWeekday t ∈ S → r ≤ t) ∧
      r ≤ max now date + 7 ∧
      (date ≤ now → ∀ t, now < t → isoWeekday t ∈ S → r ≤ t) := by
  obtain ⟨hp, hne⟩ := parseWeekdays_ok hS hr
  obtain ⟨v, hv⟩ := List.exists_mem_of_ne_nil S hne
  have hvr := hr v hv
  obtain ⟨t, t1, t2, t3⟩ := exists_weekday (max (date + 1) (now + 1)) (v % 7) (by omega) (by omega)
  have tmem : Weekday t ∈ S.map (fun v => v % 7) := by
    rw [t3]
    exact List.mem_map_of_mem _ hv
  have hex : ∀ fuel, (now - date).toNat + 7 ≤ fuel →
      ∃ t, date + 1 ≤ t ∧ now < t ∧ Weekday t ∈ S.map (fun v => v % 7) ∧
        (t - (date + 1)).toNat < fuel := by
    intro fuel hf
    exact ⟨t, by omega, by omega, tmem, by omega⟩
  obtain ⟨r, _, r2, r3, r4, r5⟩ := weeklyLoop_spec now (S.map fun v => v % 7) _ (date + 1)
    (hex _ le_rfl)
  refine ⟨r, ?_, by omega, r3, (isoWeekday_mem hr r).mp r4, ?_, ?_, ?_⟩
  · intro fuel hf
    obtain ⟨r', q1, q2, q3, q4, q5⟩ := weeklyLoop_spec now (S.map fun v => v % 7) fuel (date + 1)
      (hex fuel hf)
    have e : r' = r := le_antisymm (q5 r r2 r3 r4) (r5 r' q2 q3 q4)
    subst e
    unfold handleWeeklyRepeat
    simp only [List.length_cons, List.length_nil, List.getD_cons_succ, List.getD_cons_zero]
    rw [if_neg (by decide), hp]
    simp only [AddDate_days]
    rw [q1]
    rfl
  · intro t' h1 h2 h3
    exact r5 t' (by omega) h2 ((isoWeekday_mem hr t').mpr h3)
  · have := r5 t (by omega) (by omega) tmem
    omega
  · intro hle t' h2 h3
    exact r5 t' (by omega) h2 ((isoWeekday_mem hr t').mpr h3)

/-- C6. Weekly rule `w S` with every member of `S` in `1 .. 7` (1 = Monday, ...,
7 = Sunday): with enough fuel the call returns the earliest date that is strictly
after `dueDate`, strictly after `now`, and whose weekday is in `S`; this date is at
most 7 days after the later of `now` and `dueDate`; and when `dueDate` is not after
`now` it is the earliest date after `now` with a weekday in `S` (for `w 1,3,5`: the
earliest Monday, Wednesday or Friday). -/
theorem NextDate_weekly (ord : MapOrder) (today now date : Int) (dstart repeatRule : String)
    (tok : List Char) (S : List Int) (hdate : Parse dstart.data = some date)
    (hrule : Fields repeatRule.data = [['w'], tok]) (hS : members tok = S.map some)
    (hr : ∀ v ∈ S, 1 ≤ v ∧ v ≤ 7) :
    (∃ r, (∀ fuel, (now - date).toNat + 7 ≤ fuel →
        NextDate fuel ord today now dstart repeatRule = .ok (Format r)) ∧
      date < r ∧ now < r ∧ isoWeekday r ∈ S ∧
      (∀ t, date < t → now < t → isoWeekday t ∈ S → r ≤ t) ∧
      r ≤ max now date + 7 ∧
      (date ≤ now → ∀ t, now < t → isoWeekday t ∈ S → r ≤ t)) ∧
    (∃ r, (∀ fuel, (now - date).toNat + 7 ≤ fuel →
        NextDate fuel ord today now dstart "w 1,3,5" = .ok (Format r)) ∧
      (isoWeekday r = 1 ∨ isoWeekday r = 3 ∨ isoWeekday r = 5) ∧
      (date ≤ now → now < r ∧ ∀ t, now < t →
        isoWeekday t = 1 ∨ isoWeekday t = 3 ∨ isoWeekday t = 5 → r ≤ t)) := by
  have key : ∀ (r : String) (t : List Char), Fields r.data = [['w'], t] →
      ∀ fuel, NextDate fuel ord today now dstart r
        = handleWeeklyRepeat fuel now date [['w'], t] := by
    intro r t hf fuel
    rw [NextDate_of_fields hdate hf, if_neg (by decide), if_neg (by decide), if_pos rfl]
  constructor
  · obtain ⟨r, h1, h2⟩ := handleWeeklyRepeat_spec now date hS hr
    refine ⟨r, ?_, h2⟩
    intro fuel hf
    rw [key _ _ hrule, h1 fuel hf]
  · obtain ⟨r, h1, _, h3, h4, _, _, h7⟩ := handleWeeklyRepeat_spec now date
      (show members ['1', ',', '3', ',', '5'] = ([1, 3, 5] : List Int).map some by decide)
      (by decide)
    refine ⟨r, ?_, by simpa using h4, ?_⟩
    · intro fuel hf
      rw [key "w 1,3,5" ['1', ',', '3', ',', '5'] (by decide), h1 fuel hf]
    · intro hle
      refine ⟨h3, ?_⟩
      intro t ht hw
      exact h7 hle t ht (by simpa using hw)

theorem NextDate_weekly_witness :
    ∃ r, NextDate 20 MapOrder.insertion 0 (Date 2024 1 26) "20240119" "w 1,3,5"
        = .ok (Format r) ∧ Date 2024 1 26 < r ∧ isoWeekday r ∈ [1, 3, 5] := by
  obtain ⟨r, h1, _, h3, h4, _⟩ := (NextDate_weekly MapOrder.insertion 0 (Date 2024 1 26)
    (Date 2024 1 19) "20240119" "w 1,3,5" ['1', ',', '3', ',', '5'] [1, 3, 5]
    (by decide) (by decide) (by decide) (by decide)).1
  exact ⟨r, h1 20 (by decide), h3, h4⟩

/-- C1 fails on the code: the rule `m -1 1` passes validation, and with `now` =
2024-12-31 and `dueDate` = 20240101 the call returns 20241230, which is before `now`.
The branch for a day-set with a month-set builds the candidate from the raw day `-1`,
which lands in December of the year before, and rolls it forward by one year only. -/
theorem NextDate_monthly_returns_before_now :
    NextDate 0 MapOrder.insertion 0 (Date 2024 12 31) "20240101" "m -1 1"
      = .ok (Format (Date 2024 12 30)) ∧
    Format (Date 2024 12 30) = "20241230" ∧ Date 2024 12 30 < Date 2024 12 31 := by
  decide

/-- C8 fails on the code: for `m -1` with `dueDate` = 20240131 and `now` = 2024-01-01 the
call returns 20240302, the second day of March (a month of 31 days); and for `m -1 1`
with `dueDate` = 20240101 and `now` = 2024-12-31 it returns a day of December, a month
that is not in the month-set. -/
theorem NextDate_monthly_result_off_rule :
    NextDate 0 MapOrder.insertion 0 (Date 2024 1 1) "20240131" "m -1"
      = .ok (Format (Date 2024 3 2)) ∧
    Format (Date 2024 3 2) = "20240302" ∧
    Day (Date 2024 3 2) = 2 ∧ daysIn (Year (Date 2024 3 2)) (Month (Date 2024 3 2)) = 31 ∧
    NextDate 0 MapOrder.insertion 0 (Date 2024 12 31) "20240101" "m -1 1"
      = .ok (Format (Date 2024 12 30)) ∧
    Month (Date 2024 12 30) = 12 := by
  decide

/-- C2, as stated, fails twice: the result of `d 1` depends on the wall clock (with
`now` = 2024-01-10 and `dueDate` = 20240105 it is 20240105 when the wall clock is on
2024-01-10 and 20240111 a day later), and the result of the monthly rule `m 15,31`
depends on the order in which the day-set is visited (`dueDate` = 20240410: 20240415
when 15 is visited first, 20240515 when 31 is visited first). -/
theorem NextDate_not_function_of_arguments :
    NextDate 10 MapOrder.insertion (Date 2024 1 10) (Date 2024 1 10) "20240105" "d 1"
      = .ok "20240105" ∧
    NextDate 10 MapOrder.insertion (Date 2024 1 11) (Date 2024 1 10) "20240105" "d 1"
      = .ok "20240111" ∧
    NextDate 10 MapOrder.insertion (Date 2024 1 10) (Date 2024 1 10) "20240105" "d 1"
      ≠ NextDate 10 MapOrder.insertion (Date 2024 1 11) (Date 2024 1 10) "20240105" "d 1" ∧
    NextDate 0 MapOrder.insertion 0 (Date 2024 4 1) "20240410" "m 15,31" = .ok "20240415" ∧
    NextDate 0 MapOrder.reversed 0 (Date 2024 4 1) "20240410" "m 15,31" = .ok "20240515" ∧
    NextDate 0 MapOrder.insertion 0 (Date 2024 4 1) "20240410" "m 15,31"
      ≠ NextDate 0 MapOrder.reversed 0 (Date 2024 4 1) "20240410" "m 15,31" := by
  decide

theorem sortSlice_perm {l1 l2 : List Int} (h : l1.Perm l2) : sortSlice l1 = sortSlice l2 := by
  unfold sortSlice
  have p : (l1.insertionSort (· ≤ ·)).Perm (l2.insertionSort (· ≤ ·)) :=
    (List.perm_insertionSort _ l1).trans (h.trans (List.perm_insertionSort _ l2).symm)
  exact List.eq_of_perm_of_sorted p (List.sorted_insertionSort _ l1)
    (List.sorted_insertionSort _ l2)

theorem firstCandidate_perm {l1 l2 : List Int} (h : l1.Perm l2) :
    firstCandidate l1 = firstCandidate l2 := by
  unfold firstCandidate
  rw [sortSlice_perm h]

theorem insertKey_ne_nil (keys : List Int) (k : Int) : insertKey keys k ≠ [] := by
  unfold insertKey
  split_ifs with h
  · exact List.ne_nil_of_mem h
  · simp

theorem parseDaysLoop_ne_nil : ∀ (parts : List (List Char)) (acc days : List Int),
    parseDaysLoop parts acc = .ok days → acc ≠ [] ∨ parts ≠ [] → days ≠ [] := by
  intro parts
  induction parts with
  | nil =>
    intro acc days h hne
    simp only [parseDaysLoop, Except.ok.injEq] at h
    subst h
    simpa using hne
  | cons part parts ih =>
    intro acc days h _
    unfold parseDaysLoop at h
    cases ha : Atoi (TrimSpace part) with
    | none => simp [ha] at h
    | some day =>
      simp only [ha] at h
      split_ifs at h
      · exact ih _ _ h (Or.inl (insertKey_ne_nil _ _))
      · exact ih _ _ h (Or.inl (insertKey_ne_nil _ _))

theorem parseMonthsLoop_ne_nil : ∀ (parts : List (List Char)) (acc months : List Int),
    parseMonthsLoop parts acc = .ok months → acc ≠ [] ∨ parts ≠ [] → months ≠ [] := by
  intro parts
  induction parts with
  | nil =>
    intro acc months h hne
    simp only [parseMonthsLoop, Except.ok.injEq] at h
    subst h
    simpa using hne
  | cons part parts ih =>
    intro acc months h _
    unfold parseMonthsLoop at h
    cases ha : Atoi (TrimSpace part) with
    | none => simp [ha] at h
    | some month =>
      simp only [ha] at h
      split_ifs at h
      exact ih _ _ h (Or.inl (insertKey_ne_nil _ _))

/-- When `parseMonthly` succeeds the day-set is not empty, and the month-set is not
empty when a month list was given. -/
theorem parseMonthly_ne_nil {parts : List (List Char)} {days months : List Int}
    (h : parseMonthly parts = .ok (days, months)) :
    days ≠ [] ∧ (1 < parts.length → months ≠ []) ∧ (¬ 1 < parts.length → months = []) := by
  unfold parseMonthly at h
  cases hd : parseDaysLoop (Split (parts.getD 0 [])) [] with
  | error e =>
    rw [hd] at h
    simp at h
  | ok ds =>
    rw [hd] at h
    simp only at h
    have hds := parseDaysLoop_ne_nil _ _ _ hd (Or.inr (Split_ne_nil _))
    by_cases hl : parts.length > 1
    · rw [if_pos hl] at h
      cases hm : parseMonthsLoop (Split (parts.getD 1 [])) [] with
      | error e =>
        rw [hm] at h
        simp at h
      | ok ms =>
        rw [hm] at h
        simp only [Except.ok.injEq, Prod.mk.injEq] at h
        have hms := parseMonthsLoop_ne_nil _ _ _ hm (Or.inr (Split_ne_nil _))
        rw [← h.1, ← h.2]
        exact ⟨hds, fun _ => hms, fun hc => absurd hl hc⟩
    · rw [if_neg hl] at h
      simp only [Except.ok.injEq, Prod.mk.injEq] at h
      rw [← h.1, ← h.2]
      exact ⟨hds, fun hc => absurd hc hl, fun _ => rfl⟩

/-- The monthly handler on a three-token rule does not depend on the order in which
the sets are visited. -/
theorem handleMonthlyRepeat_order (ord1 ord2 : MapOrder) (now date : Int)
    (parts : List (List Char)) (h3 : parts.length ≠ 2) :
    handleMonthlyRepeat ord1 now date parts = handleMonthlyRepeat ord2 now date parts := by
  unfold handleMonthlyRepeat
  by_cases hl : parts.length < 2 ∨ parts.length > 3
  · rw [if_pos hl, if_pos hl]
  · rw [if_neg hl, if_neg hl]
    cases hp : parseMonthly (parts.drop 1) with
    | error e => rfl
    | ok dm =>
      obtain ⟨days, months⟩ := dm
      obtain ⟨hd, hm, _⟩ := parseMonthly_ne_nil hp
      have hm' := hm (by rw [List.length_drop]; omega)
      have hlen : months.length > 0 ∧ days.length > 0 :=
        ⟨List.length_pos.mpr hm', List.length_pos.mpr hd⟩
      simp only [hlen, and_self, if_true]
      apply firstCandidate_perm
      have p1 := ord1.perm months
      have p2 := ord2.perm months
      have q1 := ord1.perm days
      have q2 := ord2.perm days
      refine ((p1.trans p2.symm).flatMap_right _).trans ?_
      apply List.Perm.flatMap_left
      intro vm _
      exact (q1.trans q2.symm).map _

/-- The daily handler reads the wall clock only to compare it with `now`. -/
theorem handleDailyRepeat_clock (fuel : Nat) (today1 today2 now date : Int)
    (parts : List (List Char)) (h : now = today1 ↔ now = today2) :
    handleDailyRepeat fuel today1 now date parts
      = handleDailyRepeat fuel today2 now date parts := by
  have e : (Format now = Format today1) ↔ (Format now = Format today2) :=
    ⟨fun h1 => congrArg Format (h.mp (Format_inj h1)),
     fun h2 => congrArg Format (h.mpr (Format_inj h2))⟩
  unfold handleDailyRepeat
  simp only [e]

/-- C2, amended. `NextDate` is a function of its arguments and of whether the wall
clock's calendar day is the day of `now`: two evaluations on the same
`(now, dueDate, rule)` that agree on that return the same result (same date or same
error), whatever the order in which the day-set and month-set of a monthly rule are
visited, for every rule other than a monthly rule made of a day-set alone. -/
theorem NextDate_deterministic (fuel : Nat) (ord1 ord2 : MapOrder) (today1 today2 now : Int)
    (dstart repeatRule : String) (hclock : now = today1 ↔ now = today2)
    (hshape : (Fields repeatRule.data).head? = some ['m'] →
      (Fields repeatRule.data).length ≠ 2) :
    NextDate fuel ord1 today1 now dstart repeatRule
      = NextDate fuel ord2 today2 now dstart repeatRule := by
  by_cases he : repeatRule = ""
  · unfold NextDate
    simp [he]
  cases hd : Parse dstart.data with
  | none =>
    unfold NextDate
    simp [he, hd]
  | some date =>
    cases hf : Fields repeatRule.data with
    | nil =>
      unfold NextDate
      simp [he, hd, hf]
    | cons kind rest =>
      rw [NextDate_of_fields hd hf, NextDate_of_fields hd hf,
        handleDailyRepeat_clock fuel today1 today2 now date _ hclock]
      by_cases hm : kind = ['m']
      · subst hm
        have hlen : (['m'] :: rest).length ≠ 2 := by
          rw [hf] at hshape
          exact hshape rfl
        rw [handleMonthlyRepeat_order ord1 ord2 now date _ hlen]
      · simp only [hm, if_false]

theorem NextDate_deterministic_witness :
    NextDate 0 MapOrder.insertion (Date 2024 1 10) (Date 2024 1 26) "20240119" "m 15,20 1,7"
      = NextDate 0 MapOrder.reversed (Date 2024 1 11) (Date 2024 1 26) "20240119" "m 15,20 1,7" :=
  NextDate_deterministic 0 MapOrder.insertion MapOrder.reversed (Date 2024 1 10)
    (Date 2024 1 11) (Date 2024 1 26) "20240119" "m 15,20 1,7" (by decide) (by decide)

/-- Members that all pass a range check are the images of a list of integers in range. -/
theorem members_of_inRange {lo hi : Int} : ∀ (L : List (Option Int)),
    (∀ m ∈ L, inRange lo hi m = true) →
    ∃ S : List Int, L = S.map some ∧ ∀ v ∈ S, lo ≤ v ∧ v ≤ hi := by
  intro L
  induction L with
  | nil => intro _; exact ⟨[], rfl, by simp⟩
  | cons m L ih =>
    intro h
    obtain ⟨S, hS, hr⟩ := ih (fun x hx => h x (List.mem_cons_of_mem _ hx))
    have hm := h m (List.mem_cons_self _ _)
    cases m with
    | none => simp [inRange] at hm
    | some v =>
      simp only [inRange, Bool.and_eq_true, decide_eq_true_eq] at hm
      refine ⟨v :: S, by simp [hS], ?_⟩
      intro w hw
      rcases List.mem_cons.mp hw with h1 | h1
      · rw [h1]; exact hm
      · exact hr w h1

/-- The weekday loop either meets a member that is not an integer in `1 .. 7` and
fails with `ErrInvalidWeekday`, or succeeds. -/
theorem parseWeekdaysLoop_cases : ∀ (parts : List (List Char)) (acc : List Int),
    ((∃ p ∈ parts, inRange 1 7 (Atoi (TrimSpace p)) = false) ∧
        parseWeekdaysLoop parts acc = .error .ErrInvalidWeekday) ∨
    ((∀ p ∈ parts, inRange 1 7 (Atoi (TrimSpace p)) = true) ∧
        ∃ wds, parseWeekdaysLoop parts acc = .ok wds) := by
  intro parts
  induction parts with
  | nil => intro acc; right; exact ⟨by simp, acc, rfl⟩
  | cons part parts ih =>
    intro acc
    unfold parseWeekdaysLoop
    cases ha : Atoi (TrimSpace part) with
    | none =>
      left
      exact ⟨⟨part, List.mem_cons_self _ _, by rw [ha]; rfl⟩, rfl⟩
    | some wd =>
      simp only
      by_cases hb : wd < 1 ∨ wd > 7
      · left
        refine ⟨⟨part, List.mem_cons_self _ _, ?_⟩, by rw [if_pos hb]⟩
        rw [ha]
        simp only [inRange, Bool.and_eq_false_iff, decide_eq_false_iff_not]
        omega
      · rw [if_neg hb]
        have hv : inRange 1 7 (Atoi (TrimSpace part)) = true := by
          rw [ha]
          simp only [inRange, Bool.and_eq_true, decide_eq_true_eq]
          omega
        rcases ih (acc ++ [wd % 7]) with ⟨⟨p, hp, hbad⟩, he⟩ | ⟨hall, hok⟩
        · left
          exact ⟨⟨p, List.mem_cons_of_mem _ hp, hbad⟩, he⟩
        · right
          refine ⟨?_, hok⟩
          intro p hp
          rcases List.mem_cons.mp hp with h1 | h1
          · rw [h1]; exact hv
          · exact hall p h1

/-- The day loop either meets a member that is not a day and fails with
`ErrInvalidDay`, or succeeds. -/
theorem parseDaysLoop_cases : ∀ (parts : List (List Char)) (acc : List Int),
    ((∃ p ∈ parts, isDay (Atoi (TrimSpace p)) = false) ∧
        parseDaysLoop parts acc = .error .ErrInvalidDay) ∨
    ((∀ p ∈ parts, isDay (Atoi (TrimSpace p)) = true) ∧
        ∃ days, parseDaysLoop parts acc = .ok days) := by
  intro parts
  induction parts with
  | nil => intro acc; right; exact ⟨by simp, acc, rfl⟩
  | cons part parts ih =>
    intro acc
    unfold parseDaysLoop
    cases ha : Atoi (TrimSpace part) with
    | none =>
      left
      exact ⟨⟨part, List.mem_cons_self _ _, by rw [ha]; rfl⟩, rfl⟩
    | some day =>
      simp only
      have step : isDay (some day) = true →
          (((∃ p ∈ part :: parts, isDay (Atoi (TrimSpace p)) = false) ∧
            parseDaysLoop parts (insertKey acc day) = .error .ErrInvalidDay) ∨
          ((∀ p ∈ part :: parts, isDay (Atoi (TrimSpace p)) = true) ∧
            ∃ days, parseDaysLoop parts (insertKey acc day) = .ok days)) := by
        intro hv
        rcases ih (insertKey acc day) with ⟨⟨p, hp, hbad⟩, he⟩ | ⟨hall, hok⟩
        · left
          exact ⟨⟨p, List.mem_cons_of_mem _ hp, hbad⟩, he⟩
        · right
          refine ⟨?_, hok⟩
          intro p hp
          rcases List.mem_cons.mp hp with h1 | h1
          · rw [h1, ha]; exact hv
          · exact hall p h1
      by_cases hneg : day = -1 ∨ day = -2
      · rw [if_pos hneg]
        apply step
        simp only [isDay, Bool.or_eq_true, Bool.and_eq_true, decide_eq_true_eq]
        omega
      · rw [if_neg hneg]
        by_cases hb : day < 1 ∨ day > 31
        · left
          refine ⟨⟨part, List.mem_cons_self _ _, ?_⟩, by rw [if_pos hb]⟩
          rw [ha]
          simp only [isDay, Bool.or_eq_false_iff, Bool.and_eq_false_iff,
            decide_eq_false_iff_not]
          omega
        · rw [if_neg hb]
          apply step
          simp only [isDay, Bool.or_eq_true, Bool.and_eq_true, decide_eq_true_eq]
          omega

/-- The month loop either meets a member that is not an integer in `1 .. 12` and
fails with `ErrInvalidMonth`, or succeeds. -/
theorem parseMonthsLoop_cases : ∀ (parts : List (List Char)) (acc : List Int),
    ((∃ p ∈ parts, inRange 1 12 (Atoi (TrimSpace p)) = false) ∧
        parseMonthsLoop parts acc = .error .ErrInvalidMonth) ∨
    ((∀ p ∈ parts, inRange 1 12 (Atoi (TrimSpace p)) = true) ∧
        ∃ months, parseMonthsLoop parts acc = .ok months) := by
  intro parts
  induction parts with
  | nil => intro acc; right; exact ⟨by simp, acc, rfl⟩
  | cons part parts ih =>
    intro acc
    unfold parseMonthsLoop
    cases ha : Atoi (TrimSpace part) with
    | none =>
      left
      exact ⟨⟨part, List.mem_cons_self _ _, by rw [ha]; rfl⟩, rfl⟩
    | some month =>
      simp only
      by_cases hb : month < 1 ∨ month > 12
      · left
        refine ⟨⟨part, List.mem_cons_self _ _, ?_⟩, by rw [if_pos hb]⟩
        rw [ha]
        simp only [inRange, Bool.and_eq_false_iff, decide_eq_false_iff_not]
        omega
      · rw [if_neg hb]
        have hv : inRange 1 12 (Atoi (TrimSpace part)) = true := by
          rw [ha]
          simp only [inRange, Bool.and_eq_true, decide_eq_true_eq]
          omega
        rcases ih (insertKey acc month) with ⟨⟨p, hp, hbad⟩, he⟩ | ⟨hall, hok⟩
        · left
          exact ⟨⟨p, List.mem_cons_of_mem _ hp, hbad⟩, he⟩
        · right
          refine ⟨?_, hok⟩
          intro p hp
          rcases List.mem_cons.mp hp with h1 | h1
          · rw [h1]; exact hv
          · exact hall p h1

theorem exists_members {P : Option Int → Prop} (tok : List Char) :
    (∃ p ∈ Split tok, P (Atoi (TrimSpace p))) ↔ ∃ m ∈ members tok, P m := by
  unfold members
  simp

theorem forall_members {P : Option Int → Prop} (tok : List Char) :
    (∀ p ∈ Split tok, P (Atoi (TrimSpace p))) ↔ ∀ m ∈ members tok, P m := by
  unfold members
  simp

/-- The first candidate of a list that is not empty is its least element. -/
theorem firstCandidate_spec {l : List Int} (h : l ≠ []) :
    ∃ r, firstCandidate l = .ok (Format r) ∧ r ∈ l ∧ ∀ x ∈ l, r ≤ x := by
  unfold firstCandidate
  have hp : (sortSlice l).Perm l := List.perm_insertionSort _ l
  have hs : (sortSlice l).Sorted (· ≤ ·) := List.sorted_insertionSort _ l
  cases hl : sortSlice l with
  | nil =>
    rw [hl] at hp
    exact absurd hp.symm.eq_nil h
  | cons first rest =>
    rw [hl] at hp hs
    refine ⟨first, rfl, hp.subset (List.mem_cons_self _ _), ?_⟩
    intro x hx
    rcases List.mem_cons.mp (hp.symm.subset hx) with h1 | h1
    · rw [h1]
    · exact List.rel_of_sorted_cons hs x h1

theorem foldl_dayStep_length (dim : Int) : ∀ (vs : List Int) (st : Int × List Int),
    (vs.foldl (dayStep dim) st).2.length = st.2.length + vs.length := by
  intro vs
  induction vs with
  | nil => intro st; simp
  | cons v vs ih =>
    intro st
    rw [List.foldl_cons, ih]
    simp [dayStep]
    omega

/-- The monthly handler on a rule of two or three tokens: an invalid day, else an
invalid month, else a date. -/
theorem handleMonthlyRepeat_cases (ord : MapOrder) (now date : Int) (dayTok : List Char)
    (rest : List (List Char)) (hrest : rest.length ≤ 1) :
    ((∃ m ∈ members dayTok, isDay m = false) ∧
      handleMonthlyRepeat ord now date (['m'] :: dayTok :: rest) = .error .ErrInvalidDay) ∨
    ((∀ m ∈ members dayTok, isDay m = true) ∧
      (∃ monthTok, rest = [monthTok] ∧ ∃ m ∈ members monthTok, inRange 1 12 m = false) ∧
      handleMonthlyRepeat ord now date (['m'] :: dayTok :: rest) = .error .ErrInvalidMonth) ∨
    ((∀ m ∈ members dayTok, isDay m = true) ∧
      (∀ monthTok, rest = [monthTok] → ∀ m ∈ members monthTok, inRange 1 12 m = true) ∧
      ∃ r, handleMonthlyRepeat ord now date (['m'] :: dayTok :: rest) = .ok (Format r)) := by
  have hlen : ¬ ((['m'] :: dayTok :: rest).length < 2 ∨ (['m'] :: dayTok :: rest).length > 3) := by
    simp only [List.length_cons]
    omega
  have finish : ∀ days months, parseMonthly (dayTok :: rest) = .ok (days, months) →
      ∃ r, handleMonthlyRepeat ord now date (['m'] :: dayTok :: rest) = .ok (Format r) := by
    intro days months hp
    obtain ⟨hd, _, _⟩ := parseMonthly_ne_nil hp
    have hdl : days.length > 0 := List.length_pos.mpr hd
    have hvd : ord.visit days ≠ [] := by
      intro h
      have p := ord.perm days
      rw [h] at p
      exact hd p.symm.eq_nil
    unfold handleMonthlyRepeat
    rw [if_neg hlen]
    simp only [List.drop_succ_cons, List.drop_zero, hp]
    by_cases hm : months.length > 0
    · rw [if_pos ⟨hm, hdl⟩]
      have hvm : ord.visit months ≠ [] := by
        intro h
        have p := ord.perm months
        rw [h] at p
        exact (List.length_pos.mp hm) p.symm.eq_nil
      obtain ⟨vm, hvm'⟩ := List.exists_mem_of_ne_nil _ hvm
      obtain ⟨vd, hvd'⟩ := List.exists_mem_of_ne_nil _ hvd
      obtain ⟨r, hr, _⟩ := firstCandidate_spec (l := (ord.visit months).flatMap fun valueMonth =>
        (ord.visit days).map fun valueDay =>
          monthCandidate (if Unix date < Unix now then now else date) valueMonth valueDay) (by
          apply List.ne_nil_of_mem (a := monthCandidate _ vm vd)
          rw [List.mem_flatMap]
          exact ⟨vm, hvm', List.mem_map_of_mem _ hvd'⟩)
      exact ⟨r, hr⟩
    · rw [if_neg (fun h => hm h.1), if_pos hdl]
      obtain ⟨r, hr, _⟩ := firstCandidate_spec (l := ((ord.visit days).foldl
        (dayStep (Day (Date (Year date) (Month date + 1) 0)))
        (if Unix date < Unix now then now else date, [])).2) (by
          apply List.ne_nil_of_length_pos
          rw [foldl_dayStep_length]
          have := List.length_pos.mpr hvd
          omega)
      exact ⟨r, hr⟩
  have herr : ∀ e, parseMonthly (dayTok :: rest) = .error e →
      handleMonthlyRepeat ord now date (['m'] :: dayTok :: rest) = .error e := by
    intro e hp
    unfold handleMonthlyRepeat
    rw [if_neg hlen]
    simp only [List.drop_succ_cons, List.drop_zero, hp]
  rcases parseDaysLoop_cases (Split dayTok) [] with ⟨hbad, he⟩ | ⟨hall, days, hok⟩
  · left
    refine ⟨(exists_members (P := fun m => isDay m = false) dayTok).mp hbad, herr _ ?_⟩
    unfold parseMonthly
    simp only [List.getD_cons_zero, he]
  · right
    have hall' := (forall_members (P := fun m => isDay m = true) dayTok).mp hall
    cases rest with
    | nil =>
      right
      refine ⟨hall', by simp, finish days [] ?_⟩
      unfold parseMonthly
      simp [hok]
    | cons monthTok rest =>
      have hnil : rest = [] := by
        cases rest with
        | nil => rfl
        | cons a b => simp at hrest
      subst hnil
      rcases parseMonthsLoop_cases (Split monthTok) [] with ⟨hbad, he⟩ | ⟨hallm, months, hokm⟩
      · left
        refine ⟨hall', ⟨monthTok, rfl, (exists_members (P := fun m => inRange 1 12 m = false) monthTok).mp hbad⟩, herr _ ?_⟩
        unfold parseMonthly
        simp [hok, he]
      · right
        refine ⟨hall', ?_, finish days months ?_⟩
        · intro mt hmt
          have : mt = monthTok := by simpa using hmt.symm
          subst this
          exact (forall_members (P := fun m => inRange 1 12 m = true) mt).mp hallm
        · unfold parseMonthly
          simp [hok, hokm]

theorem loopOutcome_ne_error (x : Option Int) (e : NextDateError) :
    loopOutcome x ≠ .error e := by
  cases x <;> simp [loopOutcome]

/-- The weekly handler on a two-token rule: an invalid weekday, else whatever the
scan gives. -/
theorem handleWeeklyRepeat_cases (fuel : Nat) (now date : Int) (tok : List Char) :
    ((∃ m ∈ members tok, inRange 1 7 m = false) ∧
      handleWeeklyRepeat fuel now date [['w'], tok] = .error .ErrInvalidWeekday) ∨
    ((∀ m ∈ members tok, inRange 1 7 m = true) ∧
      ∀ e, handleWeeklyRepeat fuel now date [['w'], tok] ≠ .error e) := by
  unfold handleWeeklyRepeat parseWeekdays
  simp only [List.length_cons, List.length_nil, List.getD_cons_succ, List.getD_cons_zero]
  rw [if_neg (by decide)]
  rcases parseWeekdaysLoop_cases (Split tok) [] with ⟨hbad, he⟩ | ⟨hall, wds, hok⟩
  · left
    exact ⟨(exists_members (P := fun m => inRange 1 7 m = false) tok).mp hbad, by rw [he]⟩
  · right
    refine ⟨(forall_members (P := fun m => inRange 1 7 m = true) tok).mp hall, ?_⟩
    intro e
    rw [hok]
    exact loopOutcome_ne_error _ e

/-- C10. One bad member invalidates the whole set, and nothing else does: a two-token
`w` rule fails with `ErrInvalidWeekday` exactly when some comma-separated member is not
an integer in `1 .. 7` (as in `w abc`, `w 0`, `w 1,8`); a two- or three-token `m` rule
fails with `ErrInvalidDay` exactly when some day member is not an integer in `1 .. 31`
nor `-1` nor `-2`, and otherwise fails with `ErrInvalidMonth` exactly when a month-set is
present and some member of it is not an integer in `1 .. 12`; when neither holds the
call returns a date. -/
theorem NextDate_set_validation (ord : MapOrder) (today now date : Int)
    (dstart repeatRule : String) (hdate : Parse dstart.data = some date) :
    (∀ tok, Fields repeatRule.data = [['w'], tok] →
      (∀ fuel, NextDate fuel ord today now dstart repeatRule = .error .ErrInvalidWeekday ↔
        ∃ m ∈ members tok, inRange 1 7 m = false) ∧
      ((∀ m ∈ members tok, inRange 1 7 m = true) →
        ∃ r, ∀ fuel, (now - date).toNat + 7 ≤ fuel →
          NextDate fuel ord today now dstart repeatRule = .ok (Format r))) ∧
    (∀ dayTok rest, Fields repeatRule.data = ['m'] :: dayTok :: rest → rest.length ≤ 1 →
      (∀ fuel, NextDate fuel ord today now dstart repeatRule = .error .ErrInvalidDay ↔
        ∃ m ∈ members dayTok, isDay m = false) ∧
      ((∀ m ∈ members dayTok, isDay m = true) →
        ∀ fuel, NextDate fuel ord today now dstart repeatRule = .error .ErrInvalidMonth ↔
          ∃ monthTok, rest = [monthTok] ∧ ∃ m ∈ members monthTok, inRange 1 12 m = false) ∧
      ((∀ m ∈ members dayTok, isDay m = true) →
        (∀ monthTok, rest = [monthTok] → ∀ m ∈ members monthTok, inRange 1 12 m = true) →
        ∃ r, ∀ fuel, NextDate fuel ord today now dstart repeatRule = .ok (Format r))) ∧
    (∀ fuel, NextDate fuel ord today now dstart "w abc" = .error .ErrInvalidWeekday ∧
      NextDate fuel ord today now dstart "w 0" = .error .ErrInvalidWeekday ∧
      NextDate fuel ord today now dstart "w 1,8" = .error .ErrInvalidWeekday) := by
  have keyw : ∀ (r : String) (t : List Char), Fields r.data = [['w'], t] →
      ∀ fuel, NextDate fuel ord today now dstart r
        = handleWeeklyRepeat fuel now date [['w'], t] := by
    intro r t hf fuel
    rw [NextDate_of_fields hdate hf, if_neg (by decide), if_neg (by decide), if_pos rfl]
  have wbad : ∀ (r : String) (t : List Char), Fields r.data = [['w'], t] →
      (∃ m ∈ members t, inRange 1 7 m = false) →
      ∀ fuel, NextDate fuel ord today now dstart r = .error .ErrInvalidWeekday := by
    intro r t hf hbad fuel
    rw [keyw r t hf]
    rcases handleWeeklyRepeat_cases fuel now date t with ⟨_, he⟩ | ⟨hall, _⟩
    · exact he
    · obtain ⟨m, hm, hb⟩ := hbad
      rw [hall m hm] at hb
      exact absurd hb (by decide)
  refine ⟨?_, ?_, ?_⟩
  · intro tok hf
    constructor
    · intro fuel
      constructor
      · intro h
        rw [keyw _ _ hf] at h
        rcases handleWeeklyRepeat_cases fuel now date tok with ⟨hbad, _⟩ | ⟨_, hne⟩
        · exact hbad
        · exact absurd h (hne _)
      · intro hbad
        exact wbad _ _ hf hbad fuel
    · intro hall
      obtain ⟨S, hS, hr⟩ := members_of_inRange _ hall
      obtain ⟨r, h1, _⟩ := handleWeeklyRepeat_spec now date hS hr
      refine ⟨r, ?_⟩
      intro fuel hfuel
      rw [keyw _ _ hf, h1 fuel hfuel]
  · intro dayTok rest hf hrest
    have keym : ∀ fuel, NextDate fuel ord today now dstart repeatRule
        = handleMonthlyRepeat ord now date (['m'] :: dayTok :: rest) := by
      intro fuel
      rw [NextDate_of_fields hdate hf, if_neg (by decide), if_neg (by decide),
        if_neg (by decide), if_pos rfl]
    rcases handleMonthlyRepeat_cases ord now date dayTok rest hrest with
      ⟨hbad, he⟩ | ⟨hall, hbadm, he⟩ | ⟨hall, hallm, r, hr⟩
    · refine ⟨fun fuel => ⟨fun _ => hbad, fun _ => by rw [keym, he]⟩, ?_, ?_⟩
      · intro hall
        obtain ⟨m, hm, hb⟩ := hbad
        rw [hall m hm] at hb
        exact absurd hb (by decide)
      · intro hall
        obtain ⟨m, hm, hb⟩ := hbad
        rw [hall m hm] at hb
        exact absurd hb (by decide)
    · refine ⟨fun fuel => ⟨fun h => ?_, fun hbad => ?_⟩, ?_, ?_⟩
      · rw [keym, he] at h
        exact absurd h (by decide)
      · obtain ⟨m, hm, hb⟩ := hbad
        rw [hall m hm] at hb
        exact absurd hb (by decide)
      · intro _ fuel
        exact ⟨fun _ => hbadm, fun _ => by rw [keym, he]⟩
      · intro _ hallm
        obtain ⟨mt, hmt, m, hm, hb⟩ := hbadm
        rw [hallm mt hmt m hm] at hb
        exact absurd hb (by decide)
    · refine ⟨fun fuel => ⟨fun h => ?_, fun hbad => ?_⟩, ?_, ?_⟩
      · rw [keym, hr] at h
        exact absurd h (by simp)
      · obtain ⟨m, hm, hb⟩ := hbad
        rw [hall m hm] at hb
        exact absurd hb (by decide)
      · intro _ fuel
        constructor
        · intro h
          rw [keym, hr] at h
          exact absurd h (by simp)
        · rintro ⟨mt, hmt, m, hm, hb⟩
          rw [hallm mt hmt m hm] at hb
          exact absurd hb (by decide)
      · intro _ _
        exact ⟨r, fun fuel => by rw [keym, hr]⟩
  · intro fuel
    exact ⟨wbad "w abc" ['a', 'b', 'c'] (by decide) (by decide) fuel,
      wbad "w 0" ['0'] (by decide) (by decide) fuel,
      wbad "w 1,8" ['1', ',', '8'] (by decide) (by decide) fuel⟩

theorem NextDate_set_validation_witness :
    NextDate 0 MapOrder.insertion 0 0 "20240119" "m 15,32 1,7" = .error .ErrInvalidDay ∧
    NextDate 0 MapOrder.insertion 0 0 "20240119" "m 15,31 1,13" = .error .ErrInvalidMonth := by
  have h1 := (NextDate_set_validation MapOrder.insertion 0 0 (Date 2024 1 19) "20240119"
    "m 15,32 1,7" (by decide)).2.1 ['1', '5', ',', '3', '2'] [['1', ',', '7']] (by decide)
    (by decide)
  have h2 := (NextDate_set_validation MapOrder.insertion 0 0 (Date 2024 1 19) "20240119"
    "m 15,31 1,13" (by decide)).2.1 ['1', '5', ',', '3', '1'] [['1', ',', '1', '3']] (by decide)
    (by decide)
  exact ⟨(h1.1 0).mpr (by decide), ((h2.2.1 (by decide)) 0).mpr
    ⟨['1', ',', '1', '3'], rfl, by decide⟩⟩

/-- Month 13 is January of the next year. -/
theorem Date_month_succ {y m : Int} (h1 : 1 ≤ m) (h2 : m ≤ 12) (d : Int) :
    Date y (m + 1) d = Date y m d + daysIn y m := by
  have hs := daysBeforeYear_succ_leapDay y
  have hl := leapDay_range y
  rw [Date_of_month_range h1 h2]
  by_cases h12 : m = 12
  · subst h12
    have e1 : ((12 : Int) + 1 - 1) / 12 = 1 := by decide
    have e2 : ((12 : Int) + 1 - 1) % 12 + 1 = 1 := by decide
    show daysBeforeYear (y + (12 + 1 - 1) / 12)
      + daysBeforeMonth (y + (12 + 1 - 1) / 12) ((12 + 1 - 1) % 12 + 1) + (d - 1) = _
    rw [e1, e2]
    unfold daysBeforeMonth daysIn cumDays monthLen
    simp
    omega
  · rw [Date_of_month_range (by omega) (by omega)]
    unfold daysBeforeMonth daysIn
    generalize leapDay y = l at *
    unfold cumDays monthLen
    omega

theorem daysIn_ge (y m : Int) : 28 ≤ daysIn y m ∧ daysIn y m ≤ 31 := by
  have hl := leapDay_range y
  unfold daysIn monthLen
  omega

/-- The first day of the month of `t`. -/
theorem month_start (t : Int) : t = Date (Year t) (Month t) 1 + (Day t - 1) := by
  have h := Date_civil t
  have e : Day t = 1 + (Day t - 1) := by omega
  rw [e, Date_add_day] at h
  omega

/-- Days counted from the first of a month stay in the month up to its length. -/
theorem civil_offset {y m : Int} (hm1 : 1 ≤ m) (hm2 : m ≤ 12) {d : Int} (hd1 : 1 ≤ d)
    (hd2 : d ≤ daysIn y m) :
    Year (Date y m 1 + (d - 1)) = y ∧ Month (Date y m 1 + (d - 1)) = m ∧
      Day (Date y m 1 + (d - 1)) = d := by
  have e : Date y m 1 + (d - 1) = Date y m d := by
    rw [← Date_add_day]
    congr 1
    omega
  rw [e]
  exact civil_Date hm1 hm2 hd1 hd2

/-- Days counted from the first of the month after month `m`, up to the 28th. -/
theorem civil_offset_next {y m : Int} (hm1 : 1 ≤ m) (hm2 : m ≤ 12) {d : Int} (hd1 : 1 ≤ d)
    (hd2 : d ≤ 28) : Day (Date y (m + 1) 1 + (d - 1)) = d := by
  by_cases h12 : m = 12
  · subst h12
    have e : Date y (12 + 1) 1 = Date (y + 1) 1 1 := by
      show daysBeforeYear (y + (12 + 1 - 1) / 12)
        + daysBeforeMonth (y + (12 + 1 - 1) / 12) ((12 + 1 - 1) % 12 + 1) + (1 - 1) = _
      rw [Date_of_month_range (by decide) (by decide)]
      have e1 : ((12 : Int) + 1 - 1) / 12 = 1 := by decide
      have e2 : ((12 : Int) + 1 - 1) % 12 + 1 = 1 := by decide
      rw [e1, e2]
    rw [e]
    exact (civil_offset (by decide) (by decide) hd1 (by have := daysIn_ge (y + 1) 1; omega)).2.2
  · exact (civil_offset (y := y) (m := m + 1) (by omega) (by omega) hd1
      (by have := daysIn_ge y (m + 1); omega)).2.2

theorem Year_mono {a b : Int} (h : a ≤ b) : Year a ≤ Year b := by
  by_contra hcon
  have ha := Year_spec a
  have hb := Year_spec b
  have := daysBeforeYear_mono (show Year b + 1 ≤ Year a by omega)
  omega

/-- A day from year 0 on and up to `maxDate` has its year between 0 and the year of
`maxDate`. -/
theorem Year_range_of_bounds {t : Int} (h1 : Date 0 1 1 ≤ t) (h2 : t ≤ maxDate) :
    0 ≤ Year t ∧ Year t ≤ 292277026595 := by
  have e1 : Year (Date 0 1 1) = 0 := by decide
  have e2 : Year maxDate = 292277026595 := by decide
  have m1 := Year_mono h1
  have m2 := Year_mono h2
  omega

/-- In those years the second count of `Unix` does not wrap. -/
theorem unix_exact_of_year {t : Int} (h : 0 ≤ Year t ∧ Year t ≤ 292277026595) :
    minDate ≤ t ∧ t < daysBeforeYear 292277026596 := by
  have hs := Year_spec t
  have m1 := daysBeforeYear_mono h.1
  have m2 := daysBeforeYear_mono (show Year t + 1 ≤ 292277026596 by omega)
  have e1 : minDate = -106751991073094 := by decide
  have e2 : daysBeforeYear 0 = -719528 := by decide
  omega

/-- The candidate of the day-only branch for a day `v` in `1 .. 28`, when the length
of the month in use is at least `v`. -/
theorem dayCandidate_spec (ref v : Int) (hv1 : 1 ≤ v) (hv2 : v ≤ 28)
    (hy : 0 ≤ Year ref ∧ Year ref ≤ 292277026595) :
    ref < dayCandidate ref v ∧ Day (dayCandidate ref v) = v ∧
      ∀ t, ref < t → Day t = v → dayCandidate ref v ≤ t := by
  have hcdef : dayCandidate ref v = if Unix (Date (Year ref) (Month ref) v) ≤ Unix ref
      then AddDate (Date (Year ref) (Month ref) v) 0 1 0
      else Date (Year ref) (Month ref) v := rfl
  generalize dayCandidate ref v = c at hcdef ⊢
  generalize hc0def : Date (Year ref) (Month ref) v = c0 at hcdef
  have hm := Month_range ref
  have hd := Day_range ref
  have hL := daysIn_ge (Year ref) (Month ref)
  have href := month_start ref
  have hc0 : c0 = Date (Year ref) (Month ref) 1 + (v - 1) := by
    rw [← hc0def, ← Date_add_day]
    congr 1
    omega
  obtain ⟨cy, cm, cd⟩ := civil_offset hm.1 hm.2 hv1 (show v ≤ daysIn (Year ref) (Month ref) by omega)
  rw [← hc0] at cy cm cd
  have hnext := Date_month_succ hm.1 hm.2 (y := Year ref) 1
  have ur := unix_exact_of_year hy
  have uc := unix_exact_of_year (t := c0) (by rw [cy]; exact hy)
  -- days of the month of `ref`
  have inMonth : ∀ t, Date (Year ref) (Month ref) 1 ≤ t →
      t < Date (Year ref) (Month ref + 1) 1 →
      Day t = t - Date (Year ref) (Month ref) 1 + 1 := by
    intro t h1 h2
    have := (civil_offset hm.1 hm.2 (y := Year ref)
      (d := t - Date (Year ref) (Month ref) 1 + 1) (by omega) (by omega)).2.2
    have e : Date (Year ref) (Month ref) 1 + (t - Date (Year ref) (Month ref) 1 + 1 - 1) = t := by
      omega
    rw [e] at this
    exact this
  have inNext : ∀ t, Date (Year ref) (Month ref + 1) 1 ≤ t →
      t < Date (Year ref) (Month ref + 1) 1 + 28 →
      Day t = t - Date (Year ref) (Month ref + 1) 1 + 1 := by
    intro t h1 h2
    have := civil_offset_next hm.1 hm.2 (y := Year ref)
      (d := t - Date (Year ref) (Month ref + 1) 1 + 1) (by omega) (by omega)
    have e : Date (Year ref) (Month ref + 1) 1
        + (t - Date (Year ref) (Month ref + 1) 1 + 1 - 1) = t := by omega
    rw [e] at this
    exact this
  by_cases hle : c0 ≤ ref
  · have hc : c = Date (Year ref) (Month ref + 1) 1 + (v - 1) := by
      rw [hcdef, if_pos ((Unix_le_iff uc.1 uc.2 ur.1 ur.2).mpr hle)]
      unfold AddDate
      rw [cy, cm, cd, add_zero, add_zero, ← Date_add_day]
      congr 1
      omega
    refine ⟨by omega, ?_, ?_⟩
    · rw [hc]
      exact civil_offset_next hm.1 hm.2 hv1 hv2
    · intro t ht hday
      by_contra hcon
      by_cases hin : t < Date (Year ref) (Month ref + 1) 1
      · have := inMonth t (by omega) hin
        omega
      · have := inNext t (by omega) (by omega)
        omega
  · have hc : c = c0 := by
      rw [hcdef, if_neg (fun h => hle ((Unix_le_iff uc.1 uc.2 ur.1 ur.2).mp h))]
    refine ⟨by omega, by rw [hc]; exact cd, ?_⟩
    intro t ht hday
    by_contra hcon
    have := inMonth t (by omega) (by omega)
    omega

/-- The candidate of the branch with a month-set, for a month in `1 .. 12` and a day
in `1 .. 28`. -/
theorem monthCandidate_spec (ref m v : Int) (hm1 : 1 ≤ m) (hm2 : m ≤ 12) (hv1 : 1 ≤ v)
    (hv2 : v ≤ 28) (hy : 0 ≤ Year ref ∧ Year ref ≤ 292277026595) :
    ref < monthCandidate ref m v ∧ Month (monthCandidate ref m v) = m ∧
      Day (monthCandidate ref m v) = v ∧
      ∀ t, ref < t → Month t = m → Day t = v → monthCandidate ref m v ≤ t := by
  have hcdef : monthCandidate ref m v = if Unix (Date (Year ref) m v) ≤ Unix ref
      then AddDate (Date (Year ref) m v) 1 0 0 else Date (Year ref) m v := rfl
  generalize monthCandidate ref m v = c at hcdef ⊢
  have hys := Year_spec ref
  have hL0 := daysIn_ge (Year ref) m
  have hL1 := daysIn_ge (Year ref + 1) m
  obtain ⟨y0, m0, d0⟩ := civil_Date (y := Year ref) hm1 hm2 hv1 (by omega)
  obtain ⟨y1, m1, d1⟩ := civil_Date (y := Year ref + 1) hm1 hm2 hv1 (by omega)
  have f0 := Date_of_month_range hm1 hm2 (y := Year ref) v
  have f1 := Date_of_month_range hm1 hm2 (y := Year ref + 1) v
  have r0 := cumDays_range (leapDay_range (Year ref)) hm1 hm2
  have r1 := cumDays_range (leapDay_range (Year ref + 1)) hm1 hm2
  have s0 := daysBeforeYear_succ_leapDay (Year ref)
  have s1 := daysBeforeYear_succ_leapDay (Year ref + 1)
  unfold daysBeforeMonth at f0 f1
  unfold daysIn at hL0 hL1
  have hadd : AddDate (Date (Year ref) m v) 1 0 0 = Date (Year ref + 1) m v := by
    rw [AddDate_year_eq, y0, m0, d0]
  have ur := unix_exact_of_year hy
  have uc := unix_exact_of_year (t := Date (Year ref) m v) (by rw [y0]; exact hy)
  have hc : (Date (Year ref) m v ≤ ref ∧ c = Date (Year ref + 1) m v) ∨
      (ref < Date (Year ref) m v ∧ c = Date (Year ref) m v) := by
    by_cases hle : Date (Year ref) m v ≤ ref
    · left
      rw [hcdef, if_pos ((Unix_le_iff uc.1 uc.2 ur.1 ur.2).mpr hle), hadd]
      exact ⟨hle, rfl⟩
    · right
      rw [hcdef, if_neg (fun h => hle ((Unix_le_iff uc.1 uc.2 ur.1 ur.2).mp h))]
      exact ⟨by omega, rfl⟩
  refine ⟨by omega, ?_, ?_, ?_⟩
  · rcases hc with ⟨_, e⟩ | ⟨_, e⟩ <;> rw [e] <;> assumption
  · rcases hc with ⟨_, e⟩ | ⟨_, e⟩ <;> rw [e] <;> assumption
  · intro t ht hmt hdt
    have hyt := Year_mono (le_of_lt ht)
    have ht' := Date_civil t
    rw [hmt, hdt] at ht'
    rcases eq_or_lt_of_le hyt with hy | hy
    · rw [← hy] at ht'
      omega
    · rcases eq_or_lt_of_le (show Year ref + 1 ≤ Year t by omega) with hy1 | hy1
      · rw [← hy1] at ht'
        omega
      · have hmono := daysBeforeYear_mono (show Year ref + 1 + 1 ≤ Year t by omega)
        have ft := Date_of_month_range hm1 hm2 (y := Year t) v
        have rt := cumDays_range (leapDay_range (Year t)) hm1 hm2
        unfold daysBeforeMonth at ft
        omega

/-- The length of the month of `date`, as `handleMonthlyRepeat` computes it. -/
theorem daysInMonth_eq (date : Int) :
    Day (Date (Year date) (Month date + 1) 0) = daysIn (Year date) (Month date) := by
  have hm := Month_range date
  have hL := daysIn_ge (Year date) (Month date)
  have h := Date_month_succ hm.1 hm.2 (y := Year date) 0
  have e : Date (Year date) (Month date + 1) 0
      = Date (Year date) (Month date) 1 + (daysIn (Year date) (Month date) - 1) := by
    have := Date_add_day (Year date) (Month date) 1 (-1)
    have e0 : (1 : Int) + -1 = 0 := by decide
    rw [e0] at this
    omega
  rw [e]
  exact (civil_offset hm.1 hm.2 (by omega) le_rfl).2.2

theorem dayStep_of_le (dim ref : Int) (acc : List Int) (v : Int) (h1 : 1 ≤ v) (h2 : v ≤ dim) :
    dayStep dim (ref, acc) v = (ref, acc ++ [dayCandidate ref v]) := by
  unfold dayStep dayCandidate
  simp only [show ¬ dim < v by omega, show v > 0 by omega, if_true, if_false]

theorem foldl_dayStep_of_le (dim ref : Int) : ∀ (vs acc : List Int),
    (∀ v ∈ vs, 1 ≤ v ∧ v ≤ dim) →
    vs.foldl (dayStep dim) (ref, acc) = (ref, acc ++ vs.map (dayCandidate ref)) := by
  intro vs
  induction vs with
  | nil => intro acc _; simp
  | cons v vs ih =>
    intro acc h
    have hv := h v (List.mem_cons_self _ _)
    rw [List.foldl_cons, dayStep_of_le dim ref acc v hv.1 hv.2,
      ih _ (fun w hw => h w (List.mem_cons_of_mem _ hw))]
    simp

theorem mem_insertKey (keys : List Int) (k x : Int) :
    x ∈ insertKey keys k ↔ x ∈ keys ∨ x = k := by
  unfold insertKey
  split_ifs with h
  · constructor
    · intro hx; exact Or.inl hx
    · rintro (hx | hx)
      · exact hx
      · rw [hx]; exact h
  · simp

/-- On members that all read as days the day loop collects exactly their values. -/
theorem parseDaysLoop_ok : ∀ (parts : List (List Char)) (acc S : List Int),
    parts.map (fun part => Atoi (TrimSpace part)) = S.map some →
    (∀ v ∈ S, (1 ≤ v ∧ v ≤ 31) ∨ v = -1 ∨ v = -2) →
    ∃ days, parseDaysLoop parts acc = .ok days ∧ ∀ x, x ∈ days ↔ x ∈ acc ∨ x ∈ S := by
  intro parts
  induction parts with
  | nil =>
    intro acc S h _
    cases S with
    | nil => exact ⟨acc, rfl, by simp⟩
    | cons v S => simp at h
  | cons part parts ih =>
    intro acc S h hr
    cases S with
    | nil => simp at h
    | cons v S =>
      simp only [List.map_cons, List.cons.injEq] at h
      have hv := hr v (List.mem_cons_self _ _)
      obtain ⟨days, hd, hmem⟩ := ih (insertKey acc v) S h.2
        (fun w hw => hr w (List.mem_cons_of_mem _ hw))
      refine ⟨days, ?_, ?_⟩
      · unfold parseDaysLoop
        rw [h.1]
        simp only
        by_cases hneg : v = -1 ∨ v = -2
        · rw [if_pos hneg, hd]
        · rw [if_neg hneg, if_neg (by omega), hd]
      · intro x
        rw [hmem, mem_insertKey, List.mem_cons]
        tauto

/-- On members that all read as months the month loop collects exactly their values. -/
theorem parseMonthsLoop_ok : ∀ (parts : List (List Char)) (acc S : List Int),
    parts.map (fun part => Atoi (TrimSpace part)) = S.map some →
    (∀ v ∈ S, 1 ≤ v ∧ v ≤ 12) →
    ∃ months, parseMonthsLoop parts acc = .ok months ∧
      ∀ x, x ∈ months ↔ x ∈ acc ∨ x ∈ S := by
  intro parts
  induction parts with
  | nil =>
    intro acc S h _
    cases S with
    | nil => exact ⟨acc, rfl, by simp⟩
    | cons v S => simp at h
  | cons part parts ih =>
    intro acc S h hr
    cases S with
    | nil => simp at h
    | cons v S =>
      simp only [List.map_cons, List.cons.injEq] at h
      have hv := hr v (List.mem_cons_self _ _)
      obtain ⟨months, hd, hmem⟩ := ih (insertKey acc v) S h.2
        (fun w hw => hr w (List.mem_cons_of_mem _ hw))
      refine ⟨months, ?_, ?_⟩
      · unfold parseMonthsLoop
        rw [h.1]
        simp only
        rw [if_neg (by omega), hd]
      · intro x
        rw [hmem, mem_insertKey, List.mem_cons]
        tauto

theorem referencePoint_eq (now date : Int) (hn : minDate ≤ now ∧ now ≤ maxDate)
    (hd : Date 0 1 1 ≤ date ∧ date ≤ Date 9999 12 31) :
    (if Unix date < Unix now then now else date) = referencePoint now date := by
  have e1 : minDate = -106751991073094 := by decide
  have e2 : maxDate = 106751991166961 := by decide
  have e3 : Date 0 1 1 = -719528 := by decide
  have e4 : Date 9999 12 31 = 2932896 := by decide
  have e5 : daysBeforeYear 292277026596 = 106751991166962 := by decide
  have h : Unix date < Unix now ↔ date < now :=
    Unix_lt_iff (by omega) (by omega) (by omega) (by omega)
  unfold referencePoint
  by_cases hlt : date < now
  · rw [if_pos hlt, if_pos (h.mpr hlt)]
  · rw [if_neg hlt, if_neg (fun x => hlt (h.mp x))]

/-- The reference point lies from year 0 on and is at most `maxDate`. -/
theorem referencePoint_range (now date : Int) (hn : minDate ≤ now ∧ now ≤ maxDate)
    (hd : Date 0 1 1 ≤ date ∧ date ≤ Date 9999 12 31) :
    0 ≤ Year (referencePoint now date) ∧ Year (referencePoint now date) ≤ 292277026595 := by
  have e2 : maxDate = 106751991166961 := by decide
  have e3 : Date 0 1 1 = -719528 := by decide
  have e4 : Date 9999 12 31 = 2932896 := by decide
  apply Year_range_of_bounds
  · unfold referencePoint
    split_ifs <;> omega
  · unfold referencePoint
    split_ifs <;> omega

theorem digitOf_range {c : Char} {a : Int} (h : digitOf c = some a) : 0 ≤ a ∧ a ≤ 9 := by
  unfold digitOf at h
  split_ifs at h with hc
  have := Option.some.inj h
  omega

/-- A date that parses lies between 0000-01-01 and 9999-12-31. -/
theorem Parse_range {s : List Char} {date : Int} (h : Parse s = some date) :
    Date 0 1 1 ≤ date ∧ date ≤ Date 9999 12 31 := by
  have e3 : Date 0 1 1 = -719528 := by decide
  have e4 : Date 9999 12 31 = 2932896 := by decide
  unfold Parse at h
  split at h
  · split at h
    · rename_i a b c d e f g k ha hb hc hd he hf hg hk
      have ra := digitOf_range ha
      have rb := digitOf_range hb
      have rc := digitOf_range hc
      have rd := digitOf_range hd
      simp only at h
      split_ifs at h with hm hday
      have hdt := Option.some.inj h
      have hm1 : 1 ≤ 10 * e + f ∧ 10 * e + f ≤ 12 := by omega
      have hL := daysIn_ge (1000 * a + 100 * b + 10 * c + d) (10 * e + f)
      have hform := Date_of_month_range hm1.1 hm1.2 (y := 1000 * a + 100 * b + 10 * c + d)
        (10 * g + k)
      have hcum := cumDays_range (leapDay_range (1000 * a + 100 * b + 10 * c + d)) hm1.1 hm1.2
      have m1 := daysBeforeYear_mono (show (0 : Int) ≤ 1000 * a + 100 * b + 10 * c + d by omega)
      have m2 := daysBeforeYear_mono
        (show 1000 * a + 100 * b + 10 * c + d + 1 ≤ 10000 by omega)
      have s1 := daysBeforeYear_succ_leapDay (1000 * a + 100 * b + 10 * c + d)
      have n1 : daysBeforeYear 0 = -719528 := by decide
      have n2 : daysBeforeYear 10000 = 2932897 := by decide
      unfold daysBeforeMonth at hform
      unfold daysIn at hL hday
      omega
    · exact absurd h (by simp)
  · exact absurd h (by simp)


/-- The monthly handler on a day-set alone with every day in `1 .. 28`. -/
theorem handleMonthlyRepeat_days (ord : MapOrder) (now date : Int) {dayTok : List Char}
    {D : List Int} (hD : members dayTok = D.map some) (hDr : ∀ d ∈ D, 1 ≤ d ∧ d ≤ 28)
    (hn : minDate ≤ now ∧ now ≤ maxDate) (hd : Date 0 1 1 ≤ date ∧ date ≤ Date 9999 12 31) :
    ∃ r, handleMonthlyRepeat ord now date [['m'], dayTok] = .ok (Format r) ∧
      referencePoint now date < r ∧ Day r ∈ D ∧
      ∀ t, referencePoint now date < t → Day t ∈ D → r ≤ t := by
  obtain ⟨days, hpd, hmem⟩ := parseDaysLoop_ok (Split dayTok) [] D hD
    (fun v hv => Or.inl ⟨(hDr v hv).1, by have := (hDr v hv).2; omega⟩)
  have hmem' : ∀ x, x ∈ ord.visit days ↔ x ∈ D := by
    intro x
    rw [(ord.perm days).mem_iff, hmem]
    simp
  have hp : parseMonthly [dayTok] = .ok (days, []) := by
    unfold parseMonthly
    simp [hpd]
  obtain ⟨hne, _, _⟩ := parseMonthly_ne_nil hp
  have hdim := daysIn_ge (Year date) (Month date)
  have hfold := foldl_dayStep_of_le (Day (Date (Year date) (Month date + 1) 0))
    (referencePoint now date) (ord.visit days) [] (by
      intro v hv
      have := hDr v ((hmem' v).mp hv)
      rw [daysInMonth_eq]
      omega)
  have hvne : (ord.visit days).map (dayCandidate (referencePoint now date)) ≠ [] := by
    intro h
    have h' := List.map_eq_nil_iff.mp h
    have p := ord.perm days
    rw [h'] at p
    exact hne p.symm.eq_nil
  obtain ⟨r, hr, hin, hmin⟩ := firstCandidate_spec hvne
  refine ⟨r, ?_, ?_⟩
  · unfold handleMonthlyRepeat
    simp only [List.length_cons, List.length_nil, List.drop_succ_cons, List.drop_zero, hp,
      referencePoint_eq now date hn hd]
    rw [if_neg (by decide), if_neg (by simp), if_pos (List.length_pos.mpr hne), hfold]
    simpa using hr
  · obtain ⟨v, hv, rfl⟩ := List.mem_map.mp hin
    have hvD := (hmem' v).mp hv
    obtain ⟨c1, c2, _⟩ := dayCandidate_spec (referencePoint now date) v (hDr v hvD).1
      (hDr v hvD).2 (referencePoint_range now date hn hd)
    refine ⟨c1, by rw [c2]; exact hvD, ?_⟩
    intro t ht hday
    obtain ⟨_, _, c3⟩ := dayCandidate_spec (referencePoint now date) (Day t) (hDr _ hday).1
      (hDr _ hday).2 (referencePoint_range now date hn hd)
    exact le_trans (hmin _ (List.mem_map_of_mem _ ((hmem' _).mpr hday))) (c3 t ht rfl)

/-- The monthly handler on a day-set with every day in `1 .. 28` and a valid
month-set. -/
theorem handleMonthlyRepeat_months (ord : MapOrder) (now date : Int)
    {dayTok monthTok : List Char} {D M : List Int} (hD : members dayTok = D.map some)
    (hDr : ∀ d ∈ D, 1 ≤ d ∧ d ≤ 28) (hM : members monthTok = M.map some)
    (hMr : ∀ m ∈ M, 1 ≤ m ∧ m ≤ 12) (hn : minDate ≤ now ∧ now ≤ maxDate)
    (hd : Date 0 1 1 ≤ date ∧ date ≤ Date 9999 12 31) :
    ∃ r, handleMonthlyRepeat ord now date [['m'], dayTok, monthTok] = .ok (Format r) ∧
      referencePoint now date < r ∧ Day r ∈ D ∧ Month r ∈ M ∧
      ∀ t, referencePoint now date < t → Day t ∈ D → Month t ∈ M → r ≤ t := by
  obtain ⟨days, hpd, hmem⟩ := parseDaysLoop_ok (Split dayTok) [] D hD
    (fun v hv => Or.inl ⟨(hDr v hv).1, by have := (hDr v hv).2; omega⟩)
  obtain ⟨months, hpm, hmemm⟩ := parseMonthsLoop_ok (Split monthTok) [] M hM hMr
  have hmemD : ∀ x, x ∈ ord.visit days ↔ x ∈ D := by
    intro x
    rw [(ord.perm days).mem_iff, hmem]
    simp
  have hmemM : ∀ x, x ∈ ord.visit months ↔ x ∈ M := by
    intro x
    rw [(ord.perm months).mem_iff, hmemm]
    simp
  have hp : parseMonthly [dayTok, monthTok] = .ok (days, months) := by
    unfold parseMonthly
    simp [hpd, hpm]
  obtain ⟨hne, hnem, _⟩ := parseMonthly_ne_nil hp
  have hnem' := hnem (by simp)
  obtain ⟨v0, hv0⟩ := List.exists_mem_of_ne_nil _ hne
  obtain ⟨m0, hm0⟩ := List.exists_mem_of_ne_nil _ hnem'
  have hcand : ∀ m v, m ∈ M → v ∈ D →
      monthCandidate (referencePoint now date) m v ∈
        (ord.visit months).flatMap fun valueMonth =>
          (ord.visit days).map fun valueDay =>
            monthCandidate (referencePoint now date) valueMonth valueDay := by
    intro m v hm hv
    rw [List.mem_flatMap]
    exact ⟨m, (hmemM m).mpr hm, List.mem_map.mpr ⟨v, (hmemD v).mpr hv, rfl⟩⟩
  have hv0D : v0 ∈ D := (hmem v0).mp hv0 |>.resolve_left (by simp)
  have hm0M : m0 ∈ M := (hmemm m0).mp hm0 |>.resolve_left (by simp)
  obtain ⟨r, hr, hin, hmin⟩ := firstCandidate_spec (List.ne_nil_of_mem (hcand m0 v0 hm0M hv0D))
  refine ⟨r, ?_, ?_⟩
  · unfold handleMonthlyRepeat
    simp only [List.length_cons, List.length_nil, List.drop_succ_cons, List.drop_zero, hp,
      referencePoint_eq now date hn hd]
    rw [if_neg (by decide),
      if_pos ⟨List.length_pos.mpr hnem', List.length_pos.mpr hne⟩]
    exact hr
  · obtain ⟨m, hm, hin2⟩ := List.mem_flatMap.mp hin
    obtain ⟨v, hv, rfl⟩ := List.mem_map.mp hin2
    have hvD := (hmemD v).mp hv
    have hmM := (hmemM m).mp hm
    obtain ⟨c1, c2, c3, _⟩ := monthCandidate_spec (referencePoint now date) m v (hMr m hmM).1
      (hMr m hmM).2 (hDr v hvD).1 (hDr v hvD).2 (referencePoint_range now date hn hd)
    refine ⟨c1, by rw [c3]; exact hvD, by rw [c2]; exact hmM, ?_⟩
    intro t ht hday hmonth
    obtain ⟨_, _, _, c4⟩ := monthCandidate_spec (referencePoint now date) (Month t) (Day t)
      (hMr _ hmonth).1 (hMr _ hmonth).2 (hDr _ hday).1 (hDr _ hday).2
      (referencePoint_range now date hn hd)
    exact le_trans (hmin _ (hcand _ _ hmonth hday)) (c4 t ht rfl rfl)

/-- C7, as stated, fails for a `now` so late that the `int64` second count of
`Unix()` wraps: with `now` = 292277026596-01-26, `dueDate` = 20240119 and the rule
`m 15 12` the candidate 292277026596-12-15 has a negative `Unix()`, is taken to be at
or before the reference point and rolled one year on, so the call returns
2922770265971215 although 15 December 292277026596 is after the reference point. -/
theorem NextDate_monthly_small_days_counterexample :
    NextDate 0 MapOrder.insertion 0 (Date 292277026596 1 26) "20240119" "m 15 12"
      = .ok (Format (Date 292277026597 12 15)) ∧
    Format (Date 292277026597 12 15) = "2922770265971215" ∧
    referencePoint (Date 292277026596 1 26) (Date 2024 1 19) < Date 292277026596 12 15 ∧
    Day (Date 292277026596 12 15) = 15 ∧ Month (Date 292277026596 12 15) = 12 ∧
    Date 292277026596 12 15 < Date 292277026597 12 15 := by
  decide

/-- C7, amended. For every `now` from year -292277022399 to the end of year
292277026595 (`minDate ≤ now ≤ maxDate`, the years in which `time.Date` and the `int64`
second count of `Unix()` are exact), every `dueDate` that parses and every monthly rule
whose day values all lie in `1 .. 28`, with or without a valid month-set: the call
returns the earliest calendar date strictly after the reference point (`dueDate`, or
`now` when `dueDate` is before `now`) whose day of the month is in the day-set and, when
a month-set is given, whose month is in the month-set; for `m 15 1,7` this is the
earliest 15 January or 15 July after the reference point. -/
theorem NextDate_monthly_small_days (ord : MapOrder) (today now date : Int)
    (dstart repeatRule : String) (dayTok : List Char) (D : List Int)
    (hdate : Parse dstart.data = some date) (hD : members dayTok = D.map some)
    (hDr : ∀ d ∈ D, 1 ≤ d ∧ d ≤ 28) (hnow : minDate ≤ now ∧ now ≤ maxDate) :
    (Fields repeatRule.data = [['m'], dayTok] →
      ∃ r, (∀ fuel, NextDate fuel ord today now dstart repeatRule = .ok (Format r)) ∧
        referencePoint now date < r ∧ Day r ∈ D ∧
        ∀ t, referencePoint now date < t → Day t ∈ D → r ≤ t) ∧
    (∀ (monthTok : List Char) (M : List Int),
      Fields repeatRule.data = [['m'], dayTok, monthTok] →
      members monthTok = M.map some → (∀ m ∈ M, 1 ≤ m ∧ m ≤ 12) →
      ∃ r, (∀ fuel, NextDate fuel ord today now dstart repeatRule = .ok (Format r)) ∧
        referencePoint now date < r ∧ Day r ∈ D ∧ Month r ∈ M ∧
        ∀ t, referencePoint now date < t → Day t ∈ D → Month t ∈ M → r ≤ t) ∧
    (∃ r, (∀ fuel, NextDate fuel ord today now dstart "m 15 1,7" = .ok (Format r)) ∧
      referencePoint now date < r ∧ Day r = 15 ∧ (Month r = 1 ∨ Month r = 7) ∧
      ∀ t, referencePoint now date < t → Day t = 15 → Month t = 1 ∨ Month t = 7 → r ≤ t) := by
  have hd := Parse_range hdate
  have key : ∀ (r : String) (rest : List (List Char)), Fields r.data = ['m'] :: rest →
      ∀ fuel, NextDate fuel ord today now dstart r
        = handleMonthlyRepeat ord now date (['m'] :: rest) := by
    intro r rest hf fuel
    rw [NextDate_of_fields hdate hf, if_neg (by decide), if_neg (by decide),
      if_neg (by decide), if_pos rfl]
  refine ⟨?_, ?_, ?_⟩
  · intro hf
    obtain ⟨r, h1, h2⟩ := handleMonthlyRepeat_days ord now date hD hDr hnow hd
    exact ⟨r, fun fuel => by rw [key _ _ hf, h1], h2⟩
  · intro monthTok M hf hM hMr
    obtain ⟨r, h1, h2⟩ := handleMonthlyRepeat_months ord now date hD hDr hM hMr hnow hd
    exact ⟨r, fun fuel => by rw [key _ _ hf, h1], h2⟩
  · obtain ⟨r, h1, h2, h3, h4, h5⟩ := handleMonthlyRepeat_months ord now date
      (show members ['1', '5'] = ([15] : List Int).map some by decide) (by decide)
      (show members ['1', ',', '7'] = ([1, 7] : List Int).map some by decide) (by decide)
      hnow hd
    refine ⟨r, ?_, h2, by simpa using h3, by simpa using h4, ?_⟩
    · intro fuel
      rw [key "m 15 1,7" [['1', '5'], ['1', ',', '7']] (by decide), h1]
    · intro t ht hd hm
      exact h5 t ht (by simpa using hd) (by simpa using hm)

theorem NextDate_monthly_small_days_witness :
    ∃ r, NextDate 0 MapOrder.reversed 0 (Date 2024 1 26) "20240119" "m 15 1,7"
        = .ok (Format r) ∧ Date 2024 1 26 < r ∧ Day r = 15 ∧ (Month r = 1 ∨ Month r = 7) := by
  obtain ⟨r, h1, h2, h3, h4, _⟩ := (NextDate_monthly_small_days MapOrder.reversed 0
    (Date 2024 1 26) (Date 2024 1 19) "20240119" "m 15 1,7" ['1', '5'] [15]
    (by decide) (by decide) (by decide) (by decide)).2.2
  have e : referencePoint (Date 2024 1 26) (Date 2024 1 19) = Date 2024 1 26 := by decide
  rw [e] at h2
  exact ⟨r, h1 0, h2, h3, h4⟩

/-- C11. A rule whose first token is `m` never makes `NextDate` return
`ErrMaxDaysExceeded`, and the candidate list indexed at position 0 is never empty (no
panic): whenever `parseMonthly` succeeds its day-set is not empty, a day-set token with
no valid member such as `,` being rejected with `ErrInvalidDay`, so the last branch of
`handleMonthlyRepeat` is not reached. -/
theorem NextDate_monthly_never_max_days (fuel : Nat) (ord : MapOrder) (today now : Int)
    (dstart repeatRule : String) (rest : List (List Char))
    (hrule : Fields repeatRule.data = ['m'] :: rest) :
    NextDate fuel ord today now dstart repeatRule ≠ .error .ErrMaxDaysExceeded ∧
    NextDate fuel ord today now dstart repeatRule ≠ .panic ∧
    (∀ (parts : List (List Char)) (days months : List Int),
      parseMonthly parts = .ok (days, months) → days ≠ []) ∧
    parseMonthly [[',']] = .error .ErrInvalidDay ∧
    (Parse dstart.data ≠ none →
      NextDate fuel ord today now dstart "m ," = .error .ErrInvalidDay) := by
  have hne : repeatRule ≠ "" := by
    intro h
    subst h
    have h0 : Fields "".data = [] := by decide
    rw [h0] at hrule
    exact List.noConfusion hrule
  have main : NextDate fuel ord today now dstart repeatRule ≠ .error .ErrMaxDaysExceeded ∧
      NextDate fuel ord today now dstart repeatRule ≠ .panic := by
    cases hd : Parse dstart.data with
    | none =>
      have e : NextDate fuel ord today now dstart repeatRule = .error .ErrInvalidDate := by
        unfold NextDate
        simp [hne, hd]
      rw [e]
      exact ⟨by decide, by decide⟩
    | some date =>
      rw [NextDate_of_fields hd hrule, if_neg (by decide), if_neg (by decide),
        if_neg (by decide), if_pos rfl]
      have unsup : (['m'] :: rest).length < 2 ∨ (['m'] :: rest).length > 3 →
          handleMonthlyRepeat ord now date (['m'] :: rest) = .error .ErrUnsupportedRule := by
        intro h
        unfold handleMonthlyRepeat
        rw [if_pos h]
      cases rest with
      | nil =>
        rw [unsup (by simp)]
        exact ⟨by decide, by decide⟩
      | cons dayTok rest =>
        by_cases hl : rest.length ≤ 1
        · rcases handleMonthlyRepeat_cases ord now date dayTok rest hl with
            ⟨_, he⟩ | ⟨_, _, he⟩ | ⟨_, _, r, he⟩ <;> rw [he]
          · exact ⟨by decide, by decide⟩
          · exact ⟨by decide, by decide⟩
          · exact ⟨by simp, by simp⟩
        · rw [unsup (by simp only [List.length_cons]; omega)]
          exact ⟨by decide, by decide⟩
  refine ⟨main.1, main.2, ?_, rfl, ?_⟩
  · intro parts days months hp
    exact (parseMonthly_ne_nil hp).1
  · intro hp
    obtain ⟨date, hd⟩ := Option.ne_none_iff_exists'.mp hp
    rw [NextDate_of_fields hd (show Fields "m ,".data = [['m'], [',']] by decide),
      if_neg (by decide), if_neg (by decide), if_neg (by decide), if_pos rfl]
    rcases handleMonthlyRepeat_cases ord now date [','] [] (by decide) with
      ⟨_, he⟩ | ⟨hall, _⟩ | ⟨hall, _⟩
    · exact he
    · exact absurd (hall none (by decide)) (by decide)
    · exact absurd (hall none (by decide)) (by decide)

theorem NextDate_monthly_never_max_days_witness :
    NextDate 0 MapOrder.insertion 0 (Date 2024 1 26) "20240119" "m ,"
        ≠ .error .ErrMaxDaysExceeded ∧
    NextDate 0 MapOrder.insertion 0 (Date 2024 1 26) "20240119" "m ," ≠ .panic ∧
    NextDate 0 MapOrder.insertion 0 (Date 2024 1 26) "20240119" "m ,"
        = .error .ErrInvalidDay := by
  have h := NextDate_monthly_never_max_days 0 MapOrder.insertion 0 (Date 2024 1 26)
    "20240119" "m ," [[',']] (by decide)
  exact ⟨h.1, h.2.1, h.2.2.2.2 (by decide)⟩

/-- C12. The yearly rule is never rejected for its token count: for a `dueDate` that
parses and a rule whose first token is `y`, whatever tokens follow it, the call gives
what it gives for the rule `y`, and with enough fuel that is a date, strictly after
`now`. -/
theorem NextDate_yearly_extra_tokens (ord : MapOrder) (today now date : Int)
    (dstart repeatRule : String) (rest : List (List Char))
    (hdate : Parse dstart.data = some date)
    (hrule : Fields repeatRule.data = ['y'] :: rest) :
    (∀ fuel, NextDate fuel ord today now dstart repeatRule
      = NextDate fuel ord today now dstart "y") ∧
    ∃ r, now < r ∧ ∀ fuel, (now + 1 - date).toNat < fuel →
      NextDate fuel ord today now dstart repeatRule = .ok (Format r) ∧
      NextDate fuel ord today now dstart "y" = .ok (Format r) := by
  have key : ∀ (s : String) (tl : List (List Char)), Fields s.data = ['y'] :: tl →
      ∀ fuel, NextDate fuel ord today now dstart s = handleYearlyRepeat fuel now date := by
    intro s tl hf fuel
    rw [NextDate_of_fields hdate hf, if_neg (by decide), if_pos rfl]
  have ky := key "y" [] (by decide)
  have kr := key repeatRule rest hrule
  refine ⟨fun fuel => by rw [kr, ky], ?_⟩
  obtain ⟨k, h1, _, h3, h4⟩ := handleYearlyRepeat_spec now ((now + 1 - date).toNat + 1) date
    (by omega)
  refine ⟨(fun t => AddDate t 1 0 0)^[k] date, h3, ?_⟩
  intro fuel hf
  obtain ⟨k', h1', h2', h3', h4'⟩ := handleYearlyRepeat_spec now fuel date hf
  have hkk : k' = k := by
    rcases Nat.lt_trichotomy k' k with h | h | h
    · have := h4 k' h1' h; omega
    · exact h
    · have := h4' k h1 h; omega
  subst hkk
  rw [kr, ky, h2']
  exact ⟨rfl, rfl⟩

theorem NextDate_yearly_extra_tokens_witness :
    NextDate 5 MapOrder.insertion 0 (Date 2024 1 26) "20240119" "y 3 abc"
      = NextDate 5 MapOrder.insertion 0 (Date 2024 1 26) "20240119" "y" ∧
    NextDate 5 MapOrder.insertion 0 (Date 2024 1 26) "20240119" "y 3 abc" = .ok "20250119" := by
  have h := NextDate_yearly_extra_tokens MapOrder.insertion 0 (Date 2024 1 26)
    (Date 2024 1 19) "20240119" "y 3 abc" [['3'], ['a', 'b', 'c']] (by decide) (by decide)
  exact ⟨h.1 5, by decide⟩

end Scheduler
